import Mathlib

/-!
# Eye-gaze dialer: the controller of `src/dialer.cpp`

A shallow embedding of `DialerContext`, the four `State` subclasses and the
entry points of `Dialer`, followed by theorems about them.

Conventions of the embedding.

* `std::string` is its sequence of characters (`Str`).
* `float` and `double` are IEEE 754 binary32 and binary64: a finite value is
  the rational it denotes, and every operation rounds its exact result to
  nearest, ties to even, in the type of its operands (section "Floating
  point").  The reward of `WaitState` is computed in `double` as well; an
  `int` plus `37.5` is a value of `double`, so that sum is written exactly.
* `int` fields are `Int`.  Signed arithmetic on them is only ever `+ 1`,
  `- 1` and the `WaitState` reward on small values, so no wrap is modelled
  there.  The carousel index is mixed with `size_t` in the source, and that
  arithmetic is modelled modulo `2 ^ 64`, with the result converted back to a
  32-bit `int`.
* An operation whose C++ behaviour is undefined (indexing `choices` out of
  range, `% choices.size()` with an empty vector) returns `none`.
* Drawing and sound are not modelled, except that `drawAll` records when the
  renderer reads `choices` at the current index.
-/

set_option linter.unusedVariables false

namespace Eyegaze

/-! ## Floating point

The types `float` and `double` of the source are IEEE 754 binary32 and
binary64, each operation rounded to nearest, ties to even, in the type of its
operands, with no excess precision.  A finite value is the rational number it
denotes.  The two zeros are one value here: the program never tells them
apart (it divides only by `2` and by a non-zero `size()`, and takes no sign
of a zero). -/

/-- A binary floating-point format: `prec` significand bits, least positive
value `2 ^ emin`, and `2 ^ emax` the least power of two out of range. -/
structure FloatFormat where
  prec : Nat
  emin : Int
  emax : Int

/-- The format of `float`. -/
def binary32 : FloatFormat := ⟨24, -149, 128⟩

/-- The format of `double`. -/
def binary64 : FloatFormat := ⟨53, -1074, 1024⟩

/-- A floating-point datum: a finite value, an infinity or a NaN. -/
inductive FP
  | fin (q : ℚ)
  | inf (negative : Bool)
  | nan
  deriving DecidableEq

/-- The number of halvings that bring `n` below `2`, at most `fuel` of them. -/
def log2Fuel : Nat → Nat → Nat
  | 0, _ => 0
  | fuel + 1, n => if n < 2 then 0 else log2Fuel fuel (n / 2) + 1

/-- For `q > 0`, the exponent `e` with `2 ^ e ≤ q < 2 ^ (e + 1)`. -/
def floorLog2 (q : ℚ) : Int :=
  let c : Int :=
    (log2Fuel q.num.natAbs q.num.natAbs : Int) - (log2Fuel q.den q.den : Int)
  if (2 : ℚ) ^ c ≤ q then c else c - 1

/-- The nearest integer, a tie going to the even one. -/
def roundNearestEven (x : ℚ) : Int :=
  let f := ⌊x⌋
  let r := x - f
  if r < 1 / 2 then f
  else if r > 1 / 2 then f + 1
  else if f % 2 = 0 then f else f + 1

/-- The exponent `e` of the unit in the last place `2 ^ e` for a result of
magnitude `|q|`: `prec` bits below the leading one, and no less than `emin`
(subnormal range). -/
def FloatFormat.ulpExp (fmt : FloatFormat) (q : ℚ) : Int :=
  max (floorLog2 |q| - ((fmt.prec : Int) - 1)) fmt.emin

/-- The exact result `q` rounded into the format, to the nearest multiple of
the unit in the last place; a rounded magnitude of `2 ^ emax` or more
overflows to an infinity. -/
def FloatFormat.round (fmt : FloatFormat) (q : ℚ) : FP :=
  if q = 0 then .fin 0
  else
    let e := fmt.ulpExp q
    let r : ℚ := (roundNearestEven (q / (2 : ℚ) ^ e) : ℚ) * (2 : ℚ) ^ e
    if |r| ≥ (2 : ℚ) ^ fmt.emax then .inf (decide (q < 0)) else .fin r

/-- Conversion of a datum into the format. -/
def FloatFormat.convert (fmt : FloatFormat) : FP → FP
  | .fin q => fmt.round q
  | .inf s => .inf s
  | .nan => .nan

namespace FP

/-- Unary minus. -/
def neg : FP → FP
  | fin q => fin (-q)
  | inf s => inf (!s)
  | nan => nan

/-- Addition in the format `fmt`. -/
def add (fmt : FloatFormat) : FP → FP → FP
  | fin x, fin y => fmt.round (x + y)
  | fin _, inf s => inf s
  | inf s, fin _ => inf s
  | inf s, inf t => if s = t then inf s else nan
  | fin _, nan => nan
  | inf _, nan => nan
  | nan, _ => nan

/-- Subtraction in the format `fmt`. -/
def sub (fmt : FloatFormat) (a b : FP) : FP := add fmt a (neg b)

/-- Division in the format `fmt`.  A zero divisor counts as `+0`; no division
of this program has one. -/
def div (fmt : FloatFormat) : FP → FP → FP
  | fin x, fin y =>
      if y = 0 then (if x = 0 then nan else inf (decide (x < 0)))
      else fmt.round (x / y)
  | fin _, inf _ => fin 0
  | inf s, fin y => inf (s != decide (y < 0))
  | inf _, inf _ => nan
  | fin _, nan => nan
  | inf _, nan => nan
  | nan, _ => nan

/-- The comparison `<`, false as soon as an operand is a NaN. -/
def lt : FP → FP → Bool
  | fin x, fin y => decide (x < y)
  | fin _, inf s => !s
  | inf s, fin _ => s
  | inf s, inf t => s && !t
  | fin _, nan => false
  | inf _, nan => false
  | nan, _ => false

end FP

/-- The type `float`.  The operations below return values of binary32 only;
`F32.IsFloat` is the property of being one. -/
structure F32 where
  val : FP
  deriving DecidableEq

/-- The type `double`. -/
structure F64 where
  val : FP
  deriving DecidableEq

instance : Add F32 := ⟨fun a b => ⟨FP.add binary32 a.val b.val⟩⟩
instance : Div F32 := ⟨fun a b => ⟨FP.div binary32 a.val b.val⟩⟩
instance : Neg F32 := ⟨fun a => ⟨FP.neg a.val⟩⟩
instance : LT F32 := ⟨fun a b => FP.lt a.val b.val = true⟩
instance (a b : F32) : Decidable (a < b) :=
  inferInstanceAs (Decidable (FP.lt a.val b.val = true))
instance : Sub F64 := ⟨fun a b => ⟨FP.sub binary64 a.val b.val⟩⟩

/-- An integer constant converted to `float`. -/
instance (n : Nat) : OfNat F32 n := ⟨⟨binary32.round (n : ℚ)⟩⟩

/-- A decimal literal with suffix `f`. -/
instance : OfScientific F32 :=
  ⟨fun m s e => ⟨binary32.round (Rat.ofScientific m s e)⟩⟩

/-- A decimal literal, of type `double`. -/
instance : OfScientific F64 :=
  ⟨fun m s e => ⟨binary64.round (Rat.ofScientific m s e)⟩⟩

/-- Conversion `size_t → float`. -/
def F32.ofSize (n : Nat) : F32 := ⟨binary32.round (n : ℚ)⟩

/-- Promotion `float → double`, exact. -/
def F32.toDouble (a : F32) : F64 := ⟨a.val⟩

/-- Conversion `double → float`. -/
def F64.toFloat (a : F64) : F32 := ⟨binary32.convert a.val⟩

/-- A value that `float` holds: rounding to binary32 leaves it as it is. -/
def F32.IsFloat (v : F32) : Prop := binary32.convert v.val = v.val

instance (v : F32) : Decidable v.IsFloat :=
  inferInstanceAs (Decidable (binary32.convert v.val = v.val))

/-! ## Constants (anonymous namespace of `dialer.cpp`) -/

/-- The type `std::string`, as its sequence of characters. -/
abbrev Str := List Char

def moving_average_size : Nat := 3
def ticks_per_seconds : Int := 25
def debounce_delay_ticks : Int := 8
def countdown_ticks : Int := 74
/-- Source `const float eye_movement_threashold = 0.06`: the `double` literal,
converted to `float`. -/
def eye_movement_threashold : F32 := F64.toFloat 0.06

/-- Decimal rendering of an `int`, the helper `str` (an `ostringstream`). -/
def str (n : Int) : Str :=
  if n < 0 then '-' :: Nat.toDigits 10 n.natAbs else Nat.toDigits 10 n.toNat

/-! ## Data model -/

inductive EyeMovement
  | CENTER
  | LEFT
  | RIGHT
  deriving DecidableEq, Repr

/-- The active `State` object: the subclass tag with the private fields of
that subclass (`WaitState::prev_movement`, `WaitState::points`,
`PhoneCallState::ticks`).  `ConfirmState` derives from `InputState` and
overrides `enter`, `render` and `commitChoice`. -/
inductive State
  | InputState
  | WaitState (prev_movement : EyeMovement) (points : Int)
  | PhoneCallState (ticks : Int)
  | ConfirmState
  deriving DecidableEq, Repr

/-- The fields of `class DialerContext` (the canvas apart). -/
structure DialerContext where
  input : Str
  state : State
  current_choice_index : Int
  choices : List Str
  position_history : List F32
  wait_ticks : Int
  countdown : Int
  movement : EyeMovement
  deriving DecidableEq

/-! ## Integer conversions -/

/-- Conversion `int → size_t` (64-bit unsigned). -/
def toSizeT (i : Int) : Nat := (i % 2 ^ 64).toNat

/-- Conversion `size_t → int` (32-bit two's complement). -/
def toInt32 (n : Nat) : Int := ((n : Int) + 2 ^ 31) % 2 ^ 32 - 2 ^ 31

/-- Conversion `double → int`: truncation toward zero. -/
def truncToInt (q : ℚ) : Int := if 0 ≤ q then ⌊q⌋ else ⌈q⌉

/-! ## `DialerContext` members -/

namespace DialerContext

/-- Source `setChoices`: replace the carousel and reset the index. -/
def setChoices (new_choices : List Str) (ctx : DialerContext) : DialerContext :=
  { ctx with choices := new_choices, current_choice_index := 0 }

/-- Source `currentChoice`: `choices[current_choice_index]`. -/
def currentChoice (ctx : DialerContext) : Option Str :=
  ctx.choices[toSizeT ctx.current_choice_index]?

/-- Source `prevChoiceIndex`:
`(current_choice_index + choices.size() - 1) % choices.size()`. -/
def prevChoiceIndex (ctx : DialerContext) : Option Int :=
  if ctx.choices.length = 0 then none
  else some (toInt32
    ((((toSizeT ctx.current_choice_index + ctx.choices.length) % 2 ^ 64
        + (2 ^ 64 - 1)) % 2 ^ 64) % ctx.choices.length))

/-- Source `nextChoiceIndex`: `(current_choice_index + 1) % choices.size()`. -/
def nextChoiceIndex (ctx : DialerContext) : Option Int :=
  if ctx.choices.length = 0 then none
  else some (toInt32
    (((toSizeT ctx.current_choice_index + 1) % 2 ^ 64) % ctx.choices.length))

/-- Source `selectNext`. -/
def selectNext (ctx : DialerContext) : Option DialerContext :=
  (nextChoiceIndex ctx).map fun i => { ctx with current_choice_index := i }

/-- Source `selectPrev`. -/
def selectPrev (ctx : DialerContext) : Option DialerContext :=
  (prevChoiceIndex ctx).map fun i => { ctx with current_choice_index := i }

/-- Source `getMovingAverage`: `0.5` on an empty window; else the samples are
added up in the `float` variable `sum`, which starts at `0`, and `sum` is
divided by `size()` converted to `float`. -/
def getMovingAverage (ctx : DialerContext) : F32 :=
  if ctx.position_history.isEmpty then F64.toFloat 0.5
  else ctx.position_history.foldl (fun sum x => sum + x) 0
        / F32.ofSize ctx.position_history.length

/-- Source `inputPush`: append `s` to `input`. -/
def inputPush (s : Str) (ctx : DialerContext) : DialerContext :=
  { ctx with input := ctx.input ++ s }

/-- Source `inputPop`: remove the last character from `input`, if any. -/
def inputPop (ctx : DialerContext) : DialerContext :=
  if ctx.input.isEmpty then ctx else { ctx with input := ctx.input.dropLast }

end DialerContext

open DialerContext EyeMovement

/-! ## The `State` subclasses -/

/-- The carousel built by `InputState::enter`. -/
def inputChoices : List Str :=
  ((List.range 10).map fun i => str (i : Int)) ++
    [['D', 'e', 'l'], ['C', 'a', 'l', 'l']]

/-- The carousel built by `ConfirmState::enter`. -/
def confirmChoices : List Str :=
  [['N', 'o'], ['Y', 'e', 's'], ['B', 'a', 'c', 'k']]

/-- The virtual `enter` of the object `new_state`, which then is the state the
caller `setState` installs.  A `WaitState` sets both of its fields here, a
`PhoneCallState` its `ticks`. -/
def State.enter (new_state : State) (ctx : DialerContext) : DialerContext :=
  match new_state with
  | .InputState => { setChoices inputChoices ctx with state := .InputState }
  | .WaitState _ _ => { ctx with input := [], state := .WaitState CENTER 0 }
  | .PhoneCallState _ =>
      { ctx with state := .PhoneCallState (10 * ticks_per_seconds) }
  | .ConfirmState => { setChoices confirmChoices ctx with state := .ConfirmState }

/-- Source `DialerContext::setState` called with a freshly allocated state (every
call site passes `new ...`, so the pointer test `new_state == state` is
false); `exit` is the empty base method for all four subclasses. -/
def DialerContext.setState (new_state : State) (ctx : DialerContext) :
    DialerContext :=
  State.enter new_state ctx

/-- The object `new WaitState`; its fields are written by `enter`. -/
def newWaitState : State := .WaitState CENTER 0

/-- The object `new PhoneCallState` (`ticks(0)`). -/
def newPhoneCallState : State := .PhoneCallState 0

/-- Source `InputState::eyeMovement`, inherited by `ConfirmState`. -/
def InputState.eyeMovement (movement : EyeMovement) (ctx : DialerContext) :
    Option DialerContext :=
  (if movement = LEFT then selectPrev ctx
   else if movement = RIGHT then selectNext ctx
   else some ctx).map fun c =>
    if movement ≠ CENTER then { c with countdown := countdown_ticks } else c

/-- Source `InputState::commitChoice`. -/
def InputState.commitChoice (ctx : DialerContext) : Option DialerContext :=
  (currentChoice ctx).map fun choice =>
    if choice = ['D', 'e', 'l'] then inputPop ctx
    else if choice = ['C', 'a', 'l', 'l'] then setState .ConfirmState ctx
    else inputPush choice ctx

/-- Source `ConfirmState::commitChoice`. -/
def ConfirmState.commitChoice (ctx : DialerContext) : Option DialerContext :=
  (currentChoice ctx).map fun choice =>
    if choice = ['Y', 'e', 's'] then setState newPhoneCallState ctx
    else if choice = ['B', 'a', 'c', 'k'] then setState .InputState ctx
    else setState newWaitState ctx

/-- Source `WaitState::eyeMovement` on the object with fields `prev_movement` and
`points`; `points += 1.5 * ticks_per_seconds` is computed in `double` and
truncated back to `int`. -/
def WaitState.eyeMovement (prev_movement : EyeMovement) (points : Int)
    (movement : EyeMovement) (ctx : DialerContext) : DialerContext :=
  if movement = CENTER then ctx
  else
    let points1 :=
      if prev_movement ≠ movement then
        truncToInt ((points : ℚ) + 3 / 2 * (ticks_per_seconds : ℚ))
      else points
    if points1 ≥ ticks_per_seconds * 5 then setState .InputState ctx
    else { ctx with state := .WaitState movement points1 }

/-- Source `WaitState::tick`. -/
def WaitState.tick (prev_movement : EyeMovement) (points : Int)
    (ctx : DialerContext) : DialerContext :=
  if points > 0 then { ctx with state := .WaitState prev_movement (points - 1) }
  else ctx

/-- Source `PhoneCallState::tick`: `if (--ticks == 0) setState(new WaitState)`. -/
def PhoneCallState.tick (ticks : Int) (ctx : DialerContext) : DialerContext :=
  if ticks - 1 = 0 then setState newWaitState ctx
  else { ctx with state := .PhoneCallState (ticks - 1) }

/-- Virtual call `state->eyeMovement(this, movement)`. -/
def State.eyeMovement (movement : EyeMovement) (ctx : DialerContext) :
    Option DialerContext :=
  match ctx.state with
  | .InputState => InputState.eyeMovement movement ctx
  | .ConfirmState => InputState.eyeMovement movement ctx
  | .WaitState prev points => some (WaitState.eyeMovement prev points movement ctx)
  | .PhoneCallState _ => some ctx

/-- Virtual call `state->tick(this)`. -/
def State.tick (ctx : DialerContext) : DialerContext :=
  match ctx.state with
  | .InputState => ctx
  | .ConfirmState => ctx
  | .WaitState prev points => WaitState.tick prev points ctx
  | .PhoneCallState ticks => PhoneCallState.tick ticks ctx

/-- Virtual call `state->commitChoice(this)`. -/
def State.commitChoice (ctx : DialerContext) : Option DialerContext :=
  match ctx.state with
  | .InputState => InputState.commitChoice ctx
  | .ConfirmState => ConfirmState.commitChoice ctx
  | .WaitState _ _ => some ctx
  | .PhoneCallState _ => some ctx

/-- Virtual call `state->render(this)`, kept only as far as it reads the
carousel: `InputState::render` and `ConfirmState::render` call `drawChoices`,
which reads `currentChoice()`. -/
def State.render (ctx : DialerContext) : Option Unit :=
  match ctx.state with
  | .InputState => (currentChoice ctx).map fun _ => ()
  | .ConfirmState => (currentChoice ctx).map fun _ => ()
  | .WaitState _ _ => some ()
  | .PhoneCallState _ => some ()

/-! ## The tick cycle -/

namespace DialerContext

/-- Source `drawAll`:
`clear(); state->render(this); drawEyePositionIndicator(); show()`. -/
def drawAll (ctx : DialerContext) : Option Unit := State.render ctx

/-- Source `checkCountdown`. -/
def checkCountdown (ctx : DialerContext) : Option DialerContext :=
  if ctx.countdown > 0 then some { ctx with countdown := ctx.countdown - 1 }
  else State.commitChoice { ctx with countdown := countdown_ticks }

/-- The classification computed by `detectEyeMovement` from the average:
`float diff = getMovingAverage() - 0.5` subtracts in `double` and converts the
difference to `float`. -/
def classify (average : F32) : EyeMovement :=
  let diff : F32 := F64.toFloat (average.toDouble - 0.5)
  if diff < -eye_movement_threashold then LEFT
  else if diff > eye_movement_threashold then RIGHT
  else CENTER

/-- Source `detectEyeMovement`. -/
def detectEyeMovement (ctx : DialerContext) : Option DialerContext :=
  if ctx.wait_ticks > 0 then some { ctx with wait_ticks := ctx.wait_ticks - 1 }
  else
    let movement := classify (getMovingAverage ctx)
    (State.eyeMovement movement { ctx with movement := movement }).map fun c =>
      if movement ≠ CENTER then { c with wait_ticks := debounce_delay_ticks }
      else c

/-- Source `DialerContext::tick`, which is all of `Dialer::tick`. -/
def tick (ctx : DialerContext) : Option DialerContext := do
  drawAll ctx
  let c1 ← checkCountdown ctx
  let c2 ← detectEyeMovement c1
  pure (State.tick c2)

/-- The constructor `DialerContext()`: the member initialisers, then
`setState(new WaitState)`.  `movement` has no initialiser in the source; it is
written by `detectEyeMovement` before it is first read. -/
def new : DialerContext :=
  setState newWaitState
    { input := [], state := newWaitState, current_choice_index := 0,
      choices := [], position_history := [], wait_ticks := 0,
      countdown := countdown_ticks, movement := CENTER }

end DialerContext

/-! ## `Dialer` entry points -/

/-- The loop `while (size > moving_average_size) pop_front()`. -/
def popFrontWhileLong : List F32 → List F32
  | [] => []
  | x :: xs =>
      if (x :: xs).length > moving_average_size then popFrontWhileLong xs
      else x :: xs

/-- Source `Dialer::updatePupilPosition`: the `float` sum of the two horizontal
positions, divided by the `int` constant `2` converted to `float`. -/
def updatePupilPosition (pupil_left_x pupil_left_y pupil_right_x pupil_right_y : F32)
    (ctx : DialerContext) : DialerContext :=
  let position := (pupil_left_x + pupil_right_x) / 2
  { ctx with position_history := popFrontWhileLong (ctx.position_history ++ [position]) }

/-- Source `Dialer::keypress`. -/
def keypress (key : Int) (ctx : DialerContext) : Option DialerContext :=
  if key = ('h'.toNat : Int) then selectNext ctx
  else if key = ('l'.toNat : Int) then selectPrev ctx
  else some ctx

/-! ## Drivers

Sequences of calls, used to state properties of runs.  They add no behaviour:
each one only chains the operations above. -/

/-- A call the host makes on a `Dialer`. -/
inductive HostCall
  | updatePupilPosition (pupil_left_x pupil_left_y pupil_right_x pupil_right_y : F32)
  | tick
  | keypress (key : Int)
  deriving DecidableEq

/-- Perform one host call. -/
def HostCall.apply : HostCall → DialerContext → Option DialerContext
  | .updatePupilPosition lx ly rx ry, ctx =>
      some (Eyegaze.updatePupilPosition lx ly rx ry ctx)
  | .tick, ctx => DialerContext.tick ctx
  | .keypress key, ctx => Eyegaze.keypress key ctx

/-- Perform host calls in order; `none` once one of them is undefined. -/
def runHost : List HostCall → DialerContext → Option DialerContext
  | [], ctx => some ctx
  | e :: es, ctx => (e.apply ctx).bind (runHost es)

/-- The number of `tick` calls in a sequence of host calls. -/
def countTicks (es : List HostCall) : Nat := es.count HostCall.tick

/-- An event the controller dispatches to the active state object. -/
inductive Event
  | MOVEMENT (movement : EyeMovement)
  | TICK
  | COMMIT
  deriving DecidableEq

/-- Dispatch one event to the active state through the virtual call. -/
def Event.dispatch : Event → DialerContext → Option DialerContext
  | .MOVEMENT m, ctx => State.eyeMovement m ctx
  | .TICK, ctx => some (State.tick ctx)
  | .COMMIT, ctx => State.commitChoice ctx

/-- Dispatch events in order. -/
def dispatchAll : List Event → DialerContext → Option DialerContext
  | [], ctx => some ctx
  | e :: es, ctx => (e.dispatch ctx).bind (dispatchAll es)

/-- Successive calls of `checkCountdown`, with nothing in between. -/
def checkCountdownN : Nat → DialerContext → Option DialerContext
  | 0, ctx => some ctx
  | n + 1, ctx => (checkCountdownN n ctx).bind checkCountdown

/-- The movement that `detectEyeMovement` dispatches to the state when called
on `ctx`, or `none` when it returns early because the debounce is pending. -/
def dispatchedMovement (ctx : DialerContext) : Option EyeMovement :=
  if ctx.wait_ticks > 0 then none else some (classify (getMovingAverage ctx))

/-- The renderer can read the current choice whenever the active state draws
the carousel (`INPUT` and `CONFIRM`). -/
def ChoiceReadable (ctx : DialerContext) : Prop :=
  ctx.state = .InputState ∨ ctx.state = .ConfirmState → (currentChoice ctx).isSome

instance (ctx : DialerContext) : Decidable (ChoiceReadable ctx) := by
  unfold ChoiceReadable
  infer_instance

/-- Two contexts agree on what `detectEyeMovement` reads before it dispatches:
the debounce counter and the sample window. -/
def SameDetector (a b : DialerContext) : Prop :=
  a.wait_ticks = b.wait_ticks ∧ a.position_history = b.position_history

/-- The labels `"0"`, ..., `"9"` pushed by the loop of `InputState::enter`. -/
def digitLabels : List Str := (List.range 10).map fun i => str (i : Int)

/-- A pupil position that looks in the given direction: both eyes at the far
left, at the midpoint, or at the far right. -/
def gaze : EyeMovement → F32
  | CENTER => 1 / 2
  | LEFT => 0
  | RIGHT => 1

/-- One frame of the host loop: a pupil sample, then a tick. -/
def frame (x : F32) : List HostCall :=
  [.updatePupilPosition x (1 / 2) x (1 / 2), .tick]

/-- Frames looking at the centre. -/
def idleFrames : Nat → List HostCall
  | 0 => []
  | n + 1 => frame (gaze CENTER) ++ idleFrames n

/-- A glance: one frame looking toward `m`, then `gap - 1` frames looking at
the centre, so that the next glance starts `gap` ticks after this one. -/
def glance (m : EyeMovement) (gap : Nat) : List HostCall :=
  frame (gaze m) ++ idleFrames (gap - 1)

/-- The opposite direction. -/
def EyeMovement.flip : EyeMovement → EyeMovement
  | CENTER => CENTER
  | LEFT => RIGHT
  | RIGHT => LEFT

/-- Glances that alternate direction, starting toward `m`, the i-th followed
by the (i+1)-th after `gaps[i]` ticks. -/
def alternating : EyeMovement → List Nat → List HostCall
  | _, [] => []
  | m, gap :: gaps => glance m gap ++ alternating m.flip gaps

/-- Successive calls of `selectNext`. -/
def selectNextN : Nat → DialerContext → Option DialerContext
  | 0, ctx => some ctx
  | n + 1, ctx => (selectNextN n ctx).bind selectNext

/-- One call of `updatePupilPosition`: left x, left y, right x, right y. -/
structure PupilSample where
  left_x : F32
  left_y : F32
  right_x : F32
  right_y : F32

/-- The horizontal mean `(pupil_left_x + pupil_right_x) / 2` of a sample, as
`updatePupilPosition` computes it: sum and quotient in `float`. -/
def PupilSample.mean (s : PupilSample) : F32 := (s.left_x + s.right_x) / 2

/-- Successive calls of `updatePupilPosition`, one per sample. -/
def feedSamples : List PupilSample → DialerContext → DialerContext
  | [], ctx => ctx
  | s :: ss, ctx =>
      feedSamples ss (updatePupilPosition s.left_x s.left_y s.right_x s.right_y ctx)

/-- Which of the four subclasses the active state object is. -/
inductive StateKind
  | WAIT
  | INPUT
  | CONFIRM
  | CALL
  deriving DecidableEq, Repr

/-- The subclass of a state object, its private fields forgotten. -/
def State.kind : State → StateKind
  | .InputState => .INPUT
  | .WaitState _ _ => .WAIT
  | .PhoneCallState _ => .CALL
  | .ConfirmState => .CONFIRM

/-- The carousel is the one its state built and the index is within it:
what `INPUT` and `CONFIRM` need to draw and to commit. -/
def CarouselOk (ctx : DialerContext) : Prop :=
  (ctx.state = .InputState →
      ctx.choices = inputChoices ∧
      0 ≤ ctx.current_choice_index ∧ ctx.current_choice_index < 12) ∧
    (ctx.state = .ConfirmState →
      ctx.choices = confirmChoices ∧
      0 ≤ ctx.current_choice_index ∧ ctx.current_choice_index < 3)

/-- The input buffer holds decimal digits only, and nothing while `WAIT` is
active. -/
def BufferOk (ctx : DialerContext) : Prop :=
  (∀ ch ∈ ctx.input, ch.isDigit = true) ∧
    (ctx.state.kind = .WAIT → ctx.input = [])

/-! # Theorems -/

/-! ## Integer conversions and the carousel index -/

theorem toSizeT_natCast (k : Nat) (hk : k < 2 ^ 64) : toSizeT (k : Int) = k := by
  unfold toSizeT
  omega

theorem toInt32_of_lt (n : Nat) (hn : n < 2 ^ 31) : toInt32 n = (n : Int) := by
  unfold toInt32
  omega

theorem nextChoiceIndex_of_lt (ctx : DialerContext) (k : Nat)
    (hidx : ctx.current_choice_index = (k : Int)) (hk : k < ctx.choices.length)
    (hlen : ctx.choices.length ≤ 2 ^ 31) :
    nextChoiceIndex ctx = some (((k + 1) % ctx.choices.length : Nat) : Int) := by
  have hpos : ctx.choices.length ≠ 0 := by omega
  have hlt : (k + 1) % ctx.choices.length < ctx.choices.length :=
    Nat.mod_lt _ (by omega)
  unfold nextChoiceIndex
  rw [if_neg hpos, hidx, toSizeT_natCast k (by omega),
    Nat.mod_eq_of_lt (show k + 1 < 2 ^ 64 by omega), toInt32_of_lt _ (by omega)]

theorem prevChoiceIndex_of_lt (ctx : DialerContext) (k : Nat)
    (hidx : ctx.current_choice_index = (k : Int)) (hk : k < ctx.choices.length)
    (hlen : ctx.choices.length ≤ 2 ^ 31) :
    prevChoiceIndex ctx
      = some (((k + ctx.choices.length - 1) % ctx.choices.length : Nat) : Int) := by
  have hpos : ctx.choices.length ≠ 0 := by omega
  have hlt : (k + ctx.choices.length - 1) % ctx.choices.length < ctx.choices.length :=
    Nat.mod_lt _ (by omega)
  have h1 : (k + ctx.choices.length) % 2 ^ 64 = k + ctx.choices.length :=
    Nat.mod_eq_of_lt (by omega)
  have h2 : (k + ctx.choices.length + (2 ^ 64 - 1)) % 2 ^ 64
      = k + ctx.choices.length - 1 := by omega
  unfold prevChoiceIndex
  rw [if_neg hpos, hidx, toSizeT_natCast k (by omega), h1, h2,
    toInt32_of_lt _ (by omega)]

theorem next_then_prev_index (k n : Nat) (hk : k < n) :
    ((k + 1) % n + n - 1) % n = k := by
  rcases Nat.lt_or_ge (k + 1) n with h | h
  · rw [Nat.mod_eq_of_lt h]
    have : k + 1 + n - 1 = k + n := by omega
    rw [this, Nat.add_mod_right, Nat.mod_eq_of_lt hk]
  · have hn : k + 1 = n := by omega
    rw [hn, Nat.mod_self, Nat.zero_add, Nat.mod_eq_of_lt (by omega)]
    omega

theorem prev_then_next_index (k n : Nat) (hk : k < n) :
    ((k + n - 1) % n + 1) % n = k := by
  rcases Nat.eq_zero_or_pos k with h | h
  · subst h
    rw [Nat.zero_add, Nat.mod_eq_of_lt (show n - 1 < n by omega)]
    have : n - 1 + 1 = n := by omega
    rw [this, Nat.mod_self]
  · have : k + n - 1 = (k - 1) + n := by omega
    rw [this, Nat.add_mod_right, Nat.mod_eq_of_lt (show k - 1 < n by omega)]
    have : k - 1 + 1 = k := by omega
    rw [this, Nat.mod_eq_of_lt hk]

theorem selectNext_of_lt (ctx : DialerContext) (k : Nat)
    (hidx : ctx.current_choice_index = (k : Int)) (hk : k < ctx.choices.length)
    (hlen : ctx.choices.length ≤ 2 ^ 31) :
    selectNext ctx = some { ctx with
      current_choice_index := (((k + 1) % ctx.choices.length : Nat) : Int) } := by
  simp only [selectNext, nextChoiceIndex_of_lt ctx k hidx hk hlen, Option.map_some']

theorem selectPrev_of_lt (ctx : DialerContext) (k : Nat)
    (hidx : ctx.current_choice_index = (k : Int)) (hk : k < ctx.choices.length)
    (hlen : ctx.choices.length ≤ 2 ^ 31) :
    selectPrev ctx = some { ctx with
      current_choice_index := (((k + ctx.choices.length - 1) % ctx.choices.length : Nat) : Int) } := by
  simp only [selectPrev, prevChoiceIndex_of_lt ctx k hidx hk hlen, Option.map_some']

/-! ## The carousel -/

/-- C10: on a non-empty carousel (no longer than an `int` can index) with the
current index within range, `selectNext` followed by `selectPrev`, and
`selectPrev` followed by `selectNext`, both give back the context they
started from, so the current index returns to its original value. -/
theorem selectNext_selectPrev_roundtrip (ctx : DialerContext)
    (hlen : ctx.choices.length ≤ 2 ^ 31)
    (h0 : 0 ≤ ctx.current_choice_index)
    (h1 : ctx.current_choice_index < ctx.choices.length) :
    ctx.choices ≠ [] ∧
      (selectNext ctx).bind selectPrev = some ctx ∧
      (selectPrev ctx).bind selectNext = some ctx := by
  obtain ⟨k, hk⟩ := Int.eq_ofNat_of_zero_le h0
  have hkn : k < ctx.choices.length := by omega
  have hmod1 : (k + 1) % ctx.choices.length < ctx.choices.length :=
    Nat.mod_lt _ (by omega)
  have hmod2 : (k + ctx.choices.length - 1) % ctx.choices.length < ctx.choices.length :=
    Nat.mod_lt _ (by omega)
  refine ⟨?_, ?_, ?_⟩
  · intro h
    rw [h] at hkn
    exact absurd hkn (by simp)
  · rw [selectNext_of_lt ctx k hk hkn hlen, Option.some_bind]
    have h := selectPrev_of_lt
      { ctx with current_choice_index := (((k + 1) % ctx.choices.length : Nat) : Int) }
      _ rfl hmod1 hlen
    rw [h]
    simp only [next_then_prev_index k _ hkn, ← hk]
  · rw [selectPrev_of_lt ctx k hk hkn hlen, Option.some_bind]
    have h := selectNext_of_lt
      { ctx with current_choice_index :=
          (((k + ctx.choices.length - 1) % ctx.choices.length : Nat) : Int) }
      _ rfl hmod2 hlen
    rw [h]
    simp only [prev_then_next_index k _ hkn, ← hk]

/-- Witness for C10: the `CONFIRM` carousel at index 2 (`"Back"`), where
`selectNext` wraps to 0 and `selectPrev` wraps back. -/
theorem selectNext_selectPrev_roundtrip_witness :
    (setChoices confirmChoices DialerContext.new).choices ≠ [] ∧
      (selectNext { setChoices confirmChoices DialerContext.new with
          current_choice_index := 2 }).bind selectPrev
        = some { setChoices confirmChoices DialerContext.new with
            current_choice_index := 2 } ∧
      (selectPrev { setChoices confirmChoices DialerContext.new with
          current_choice_index := 2 }).bind selectNext
        = some { setChoices confirmChoices DialerContext.new with
            current_choice_index := 2 } :=
  selectNext_selectPrev_roundtrip
    { setChoices confirmChoices DialerContext.new with current_choice_index := 2 }
    (by decide) (by decide) (by decide)

/-! ## Navigation in `INPUT` and `CONFIRM` -/

theorem natCast_next_index (k n : Nat) :
    (((k + 1) % n : Nat) : Int) = ((k : Int) + 1) % (n : Int) := by
  push_cast
  rfl

theorem natCast_prev_index (k n : Nat) (hn : 0 < n) :
    (((k + n - 1) % n : Nat) : Int) = ((k : Int) + (n : Int) - 1) % (n : Int) := by
  have h : ((k + n - 1 : Nat) : Int) = (k : Int) + (n : Int) - 1 := by omega
  rw [Int.natCast_mod, h]

/-- C9: in `INPUT` and in `CONFIRM` (carousel no longer than an `int` can
index, current index within range) the dispatched movement `LEFT` moves the
index to the previous choice cyclically, `RIGHT` to the next choice
cyclically, and both set the countdown to 74 whatever it was; `CENTER` gives
back the context unchanged.  Every other field (input buffer, choice list,
active state) is the same before and after in all three cases. -/
theorem eyeMovement_navigates (ctx : DialerContext)
    (hstate : ctx.state = .InputState ∨ ctx.state = .ConfirmState)
    (hlen : ctx.choices.length ≤ 2 ^ 31)
    (h0 : 0 ≤ ctx.current_choice_index)
    (h1 : ctx.current_choice_index < ctx.choices.length) :
    State.eyeMovement LEFT ctx = some { ctx with
        current_choice_index :=
          (ctx.current_choice_index + ctx.choices.length - 1) % ctx.choices.length,
        countdown := 74 } ∧
      State.eyeMovement RIGHT ctx = some { ctx with
        current_choice_index := (ctx.current_choice_index + 1) % ctx.choices.length,
        countdown := 74 } ∧
      State.eyeMovement CENTER ctx = some ctx := by
  obtain ⟨k, hk⟩ := Int.eq_ofNat_of_zero_le h0
  have hkn : k < ctx.choices.length := by omega
  have hdisp : ∀ m, State.eyeMovement m ctx = InputState.eyeMovement m ctx := by
    intro m
    rcases hstate with h | h <;> simp only [State.eyeMovement, h]
  refine ⟨?_, ?_, ?_⟩
  · rw [hdisp, InputState.eyeMovement, if_pos rfl, selectPrev_of_lt ctx k hk hkn hlen,
      natCast_prev_index k _ (by omega), hk]
    simp [countdown_ticks]
  · rw [hdisp, InputState.eyeMovement, if_neg (by decide), if_pos rfl,
      selectNext_of_lt ctx k hk hkn hlen, natCast_next_index, hk]
    simp [countdown_ticks]
  · rw [hdisp, InputState.eyeMovement]
    simp

/-- Witness for C9: the `INPUT` carousel at index 0 (`"0"`), countdown 5. -/
theorem eyeMovement_navigates_witness :
    State.eyeMovement LEFT
        { setState .InputState DialerContext.new with countdown := 5 }
      = some { setState .InputState DialerContext.new with
          current_choice_index := 11, countdown := 74 } ∧
    State.eyeMovement RIGHT
        { setState .InputState DialerContext.new with countdown := 5 }
      = some { setState .InputState DialerContext.new with
          current_choice_index := 1, countdown := 74 } ∧
    State.eyeMovement CENTER
        { setState .InputState DialerContext.new with countdown := 5 }
      = some { setState .InputState DialerContext.new with countdown := 5 } :=
  eyeMovement_navigates { setState .InputState DialerContext.new with countdown := 5 }
    (Or.inl rfl) (by decide) (by decide) (by decide)

/-! ## Commits in `INPUT` and `CONFIRM` -/

theorem digitLabels_ne_del (c : Str) (hc : c ∈ digitLabels) : c ≠ ['D', 'e', 'l'] := by
  intro h
  subst h
  revert hc
  decide

theorem digitLabels_ne_call (c : Str) (hc : c ∈ digitLabels) :
    c ≠ ['C', 'a', 'l', 'l'] := by
  intro h
  subst h
  revert hc
  decide

/-- The commit dispatched in `INPUT`, by the current choice. -/
theorem commitChoice_of_input (ctx : DialerContext) (c : Str)
    (hstate : ctx.state = .InputState) (hc : currentChoice ctx = some c) :
    State.commitChoice ctx = some
      (if c = ['D', 'e', 'l'] then inputPop ctx
       else if c = ['C', 'a', 'l', 'l'] then setState .ConfirmState ctx
       else inputPush c ctx) := by
  simp only [State.commitChoice, hstate, InputState.commitChoice, hc, Option.map_some']

/-- The commit dispatched in `CONFIRM`, by the current choice. -/
theorem commitChoice_of_confirm (ctx : DialerContext) (c : Str)
    (hstate : ctx.state = .ConfirmState) (hc : currentChoice ctx = some c) :
    State.commitChoice ctx = some
      (if c = ['Y', 'e', 's'] then setState newPhoneCallState ctx
       else if c = ['B', 'a', 'c', 'k'] then setState .InputState ctx
       else setState newWaitState ctx) := by
  simp only [State.commitChoice, hstate, ConfirmState.commitChoice, hc, Option.map_some']

/-- C6: a commit in `INPUT` acts on the current choice `c`.  A digit label
`"0"`..`"9"` is appended to the input buffer and nothing else changes (state
`INPUT`, carousel and index as before); `"Del"` removes the last character of
the buffer and nothing else changes, an empty buffer staying empty; `"Call"`
leaves the buffer as it is and makes `CONFIRM` the active state. -/
theorem input_commitChoice (ctx : DialerContext) (c : Str)
    (hstate : ctx.state = .InputState) (hc : currentChoice ctx = some c) :
    (c ∈ digitLabels →
        State.commitChoice ctx = some { ctx with input := ctx.input ++ c }) ∧
      (c = ['D', 'e', 'l'] →
        State.commitChoice ctx = some { ctx with input := ctx.input.dropLast } ∧
        (ctx.input = [] → State.commitChoice ctx = some ctx)) ∧
      (c = ['C', 'a', 'l', 'l'] →
        ∃ c1, State.commitChoice ctx = some c1 ∧ c1.state = .ConfirmState ∧
          c1.input = ctx.input) := by
  rw [commitChoice_of_input ctx c hstate hc]
  refine ⟨?_, ?_, ?_⟩
  · intro hd
    rw [if_neg (digitLabels_ne_del c hd), if_neg (digitLabels_ne_call c hd)]
    rfl
  · intro hd
    rw [if_pos hd]
    constructor
    · unfold inputPop
      split
      · rename_i he
        have hnil : ctx.input = [] := List.isEmpty_iff.mp he
        obtain ⟨inp, st, idx, ch, ph, wt, cd, mv⟩ := ctx
        simp only at hnil
        subst hnil
        rfl
      · rfl
    · intro he
      simp [inputPop, he]
  · intro hd
    subst hd
    rw [if_neg (by decide), if_pos rfl]
    exact ⟨_, rfl, rfl, rfl⟩

/-- Witness for C6: `INPUT` showing `"3"` with buffer `"41"`. -/
theorem input_commitChoice_witness :
    State.commitChoice
        { setState .InputState DialerContext.new with
          input := ['4', '1'], current_choice_index := 3 }
      = some { setState .InputState DialerContext.new with
          input := ['4', '1', '3'], current_choice_index := 3 } :=
  (input_commitChoice
    { setState .InputState DialerContext.new with
      input := ['4', '1'], current_choice_index := 3 }
    ['3'] rfl (by decide)).1 (by decide)

/-- C7: a commit in `CONFIRM` with current choice `c` makes `CALL` the active
state when `c` is `"Yes"` and `INPUT` when it is `"Back"`, the input buffer
being the same before and after in both cases; for `"No"` and every other
choice it makes `WAIT` the active state and the input buffer is empty
afterwards. -/
theorem confirm_commitChoice (ctx : DialerContext) (c : Str)
    (hstate : ctx.state = .ConfirmState) (hc : currentChoice ctx = some c) :
    (c = ['Y', 'e', 's'] →
        State.commitChoice ctx = some { ctx with state := .PhoneCallState 250 }) ∧
      (c = ['B', 'a', 'c', 'k'] →
        State.commitChoice ctx = some { ctx with
          state := .InputState, choices := inputChoices, current_choice_index := 0 }) ∧
      (c ≠ ['Y', 'e', 's'] → c ≠ ['B', 'a', 'c', 'k'] →
        State.commitChoice ctx = some { ctx with
          state := .WaitState CENTER 0, input := [] }) := by
  rw [commitChoice_of_confirm ctx c hstate hc]
  refine ⟨?_, ?_, ?_⟩
  · intro hd
    rw [if_pos hd]
    rfl
  · intro hd
    subst hd
    rw [if_neg (by decide), if_pos rfl]
    rfl
  · intro h1 h2
    rw [if_neg h1, if_neg h2]
    rfl

/-- Witness for C7: `CONFIRM` showing `"No"` with buffer `"7"`. -/
theorem confirm_commitChoice_witness :
    State.commitChoice
        { setState .ConfirmState DialerContext.new with input := ['7'] }
      = some { setState .ConfirmState DialerContext.new with
          state := .WaitState CENTER 0, input := [] } :=
  (confirm_commitChoice
    { setState .ConfirmState DialerContext.new with input := ['7'] }
    ['N', 'o'] rfl (by decide)).2.2 (by decide) (by decide)

theorem str_mem_digitLabels (d : Nat) (hd : d < 10) : str (d : Int) ∈ digitLabels := by
  interval_cases d <;> decide

/-- C4: for every input buffer `b` and digit `d`: start in `INPUT` with buffer
`b` and current choice `d`, and commit (`c1`); navigate within `INPUT` to
`"Call"` in any way that keeps state and buffer (`nav1`), and commit (`c2`);
navigate within `CONFIRM` to `"Back"` in any way that keeps state and buffer
(`nav2`), and commit.  Then the buffer is `b` followed by `d` after the first
commit and stays so through `CONFIRM`, and the last commit ends in `INPUT` with
that buffer and the carousel reset to the 12 `INPUT` choices at index 0. -/
theorem digit_call_back_keeps_buffer (b : Str) (d : Nat)
    (ctx c1 nav1 c2 nav2 : DialerContext) (hd : d < 10)
    (hstate : ctx.state = .InputState) (hb : ctx.input = b)
    (hcur : currentChoice ctx = some (str (d : Int)))
    (hc1 : State.commitChoice ctx = some c1)
    (hnav1 : nav1.state = c1.state ∧ nav1.input = c1.input ∧
      currentChoice nav1 = some ['C', 'a', 'l', 'l'])
    (hc2 : State.commitChoice nav1 = some c2)
    (hnav2 : nav2.state = c2.state ∧ nav2.input = c2.input ∧
      currentChoice nav2 = some ['B', 'a', 'c', 'k']) :
    c1.state = .InputState ∧ c1.input = b ++ str (d : Int) ∧
      c2.state = .ConfirmState ∧ c2.input = b ++ str (d : Int) ∧
      ∃ c3, State.commitChoice nav2 = some c3 ∧
        c3.state = .InputState ∧ c3.input = b ++ str (d : Int) ∧
        c3.choices = inputChoices ∧ c3.choices.length = 12 ∧
        c3.current_choice_index = 0 := by
  have hdig := str_mem_digitLabels d hd
  have e1 := commitChoice_of_input ctx _ hstate hcur
  rw [if_neg (digitLabels_ne_del _ hdig), if_neg (digitLabels_ne_call _ hdig), hc1] at e1
  have e1 := Option.some.inj e1
  have s1 : c1.state = .InputState := by rw [e1]; exact hstate
  have i1 : c1.input = b ++ str (d : Int) := by rw [e1, ← hb]; rfl
  obtain ⟨hn1s, hn1i, hn1c⟩ := hnav1
  have e2 := commitChoice_of_input nav1 _ (hn1s.trans s1) hn1c
  rw [if_neg (by decide), if_pos rfl, hc2] at e2
  have e2 := Option.some.inj e2
  have s2 : c2.state = .ConfirmState := by rw [e2]; rfl
  have i2 : c2.input = nav1.input := by rw [e2]; rfl
  obtain ⟨hn2s, hn2i, hn2c⟩ := hnav2
  have e3 := commitChoice_of_confirm nav2 _ (hn2s.trans s2) hn2c
  rw [if_neg (by decide), if_pos rfl] at e3
  have hlen : inputChoices.length = 12 := by decide
  refine ⟨s1, i1, s2, ?_, _, e3, rfl, ?_, rfl, hlen, rfl⟩
  · rw [i2, hn1i, i1]
  · show nav2.input = _
    rw [hn2i, i2, hn1i, i1]

/-- Witness for C4: empty buffer and digit `7` give the buffer `"7"`. -/
theorem digit_call_back_keeps_buffer_witness :
    ∃ c3,
      State.commitChoice
          { setState .ConfirmState
              { setState .InputState DialerContext.new with
                input := ['7'], current_choice_index := 11 } with
            current_choice_index := 2 }
        = some c3 ∧
      c3.state = .InputState ∧ c3.input = ['7'] ∧ c3.choices = inputChoices ∧
        c3.choices.length = 12 ∧ c3.current_choice_index = 0 :=
  (digit_call_back_keeps_buffer [] 7
    { setState .InputState DialerContext.new with current_choice_index := 7 }
    { setState .InputState DialerContext.new with
      input := ['7'], current_choice_index := 7 }
    { setState .InputState DialerContext.new with
      input := ['7'], current_choice_index := 11 }
    (setState .ConfirmState
      { setState .InputState DialerContext.new with
        input := ['7'], current_choice_index := 11 })
    { setState .ConfirmState
        { setState .InputState DialerContext.new with
          input := ['7'], current_choice_index := 11 } with
      current_choice_index := 2 }
    (by decide) rfl rfl (by decide) (by decide) ⟨rfl, rfl, by decide⟩ (by decide)
    ⟨rfl, rfl, by decide⟩).2.2.2.2

/-! ## The `CALL` state -/

theorem dispatchAll_append (es fs : List Event) (ctx : DialerContext) :
    dispatchAll (es ++ fs) ctx = (dispatchAll es ctx).bind (dispatchAll fs) := by
  induction es generalizing ctx with
  | nil => rfl
  | cons e es ih =>
    rw [List.cons_append]
    simp only [dispatchAll]
    cases e.dispatch ctx with
    | none => rfl
    | some c => exact ih c

/-- In `CALL` with `t` ticks remaining, events with fewer than `t` TICKs among
them leave everything as it is except that the counter drops by the number of
TICKs. -/
theorem dispatchAll_phoneCall (es : List Event) (ctx : DialerContext) (t : Int)
    (hstate : ctx.state = .PhoneCallState t) (hlt : (es.count Event.TICK : Int) < t) :
    dispatchAll es ctx
      = some { ctx with state := .PhoneCallState (t - es.count Event.TICK) } := by
  induction es generalizing ctx t with
  | nil =>
    simp only [dispatchAll, List.count_nil, Nat.cast_zero, sub_zero, ← hstate]
  | cons e es ih =>
    cases e with
    | MOVEMENT m =>
      have hcount : (Event.MOVEMENT m :: es).count Event.TICK = es.count Event.TICK := by
        simp [List.count_cons]
      rw [hcount] at hlt ⊢
      simp only [dispatchAll, Event.dispatch, State.eyeMovement, hstate, Option.some_bind]
      exact ih ctx t hstate hlt
    | COMMIT =>
      have hcount : (Event.COMMIT :: es).count Event.TICK = es.count Event.TICK := by
        simp [List.count_cons]
      rw [hcount] at hlt ⊢
      simp only [dispatchAll, Event.dispatch, State.commitChoice, hstate, Option.some_bind]
      exact ih ctx t hstate hlt
    | TICK =>
      have hcount : (Event.TICK :: es).count Event.TICK = es.count Event.TICK + 1 := by
        simp [List.count_cons]
      rw [hcount] at hlt ⊢
      push_cast at hlt ⊢
      have hne : ¬ (t - 1 = 0) := by omega
      simp only [dispatchAll, Event.dispatch, State.tick, hstate, PhoneCallState.tick,
        if_neg hne, Option.some_bind]
      rw [ih _ (t - 1) rfl (by omega)]
      simp only [Option.some.injEq, DialerContext.mk.injEq, State.PhoneCallState.injEq,
        and_true, true_and]
      omega

/-- C3: once `CALL` has been entered (`setState(new PhoneCallState)` from any
context), every sequence of MOVEMENT, COMMIT and TICK events dispatched to the
state that contains at most 249 TICKs leaves `CALL` active and changes nothing
but the remaining-ticks counter, which is 250 minus the number of TICKs so
far (MOVEMENT and COMMIT events do not touch it); and the 250th TICK makes
`WAIT` the active state. -/
theorem call_lasts_250_ticks (ctx0 : DialerContext) (es : List Event)
    (hticks : es.count Event.TICK ≤ 249) :
    dispatchAll es (setState newPhoneCallState ctx0)
        = some { setState newPhoneCallState ctx0 with
            state := .PhoneCallState (250 - es.count Event.TICK) } ∧
      (es.count Event.TICK = 249 →
        dispatchAll (es ++ [Event.TICK]) (setState newPhoneCallState ctx0)
          = some { setState newPhoneCallState ctx0 with
              state := .WaitState CENTER 0, input := [] }) := by
  have h := dispatchAll_phoneCall es (setState newPhoneCallState ctx0) 250 rfl (by omega)
  refine ⟨h, ?_⟩
  intro h249
  rw [dispatchAll_append, h, h249]
  rfl

/-- Witness for C3: a movement, a commit and a tick right after entering
`CALL` leave 249 ticks on the counter. -/
theorem call_lasts_250_ticks_witness :
    dispatchAll [Event.MOVEMENT LEFT, Event.COMMIT, Event.TICK]
        (setState newPhoneCallState DialerContext.new)
      = some { setState newPhoneCallState DialerContext.new with
          state := .PhoneCallState 249 } :=
  (call_lasts_250_ticks DialerContext.new
    [Event.MOVEMENT LEFT, Event.COMMIT, Event.TICK] (by decide)).1

/-! ## The countdown -/

/-- Entering a state never touches the countdown. -/
theorem setState_countdown (s : State) (ctx : DialerContext) :
    (setState s ctx).countdown = ctx.countdown := by
  cases s <;> rfl

/-- Entering a state leaves the current choice readable where it is drawn. -/
theorem setState_choiceReadable (s : State) (ctx : DialerContext) :
    ChoiceReadable (setState s ctx) := by
  cases s with
  | InputState => intro _; rfl
  | ConfirmState => intro _; rfl
  | WaitState p q => intro h; rcases h with h | h <;> exact absurd h (by simp [setState, State.enter])
  | PhoneCallState t => intro h; rcases h with h | h <;> exact absurd h (by simp [setState, State.enter])

/-- A commit is defined whenever the current choice is readable; it keeps the
countdown and keeps the current choice readable. -/
theorem commitChoice_total (ctx : DialerContext) (hr : ChoiceReadable ctx) :
    ∃ c, State.commitChoice ctx = some c ∧ c.countdown = ctx.countdown ∧
      ChoiceReadable c := by
  unfold ChoiceReadable at hr
  cases hs : ctx.state with
  | WaitState p q =>
    refine ⟨ctx, by simp only [State.commitChoice, hs], rfl, ?_⟩
    intro h
    rw [hs] at h
    rcases h with h | h <;> exact absurd h (by simp)
  | PhoneCallState t =>
    refine ⟨ctx, by simp only [State.commitChoice, hs], rfl, ?_⟩
    intro h
    rw [hs] at h
    rcases h with h | h <;> exact absurd h (by simp)
  | InputState =>
    obtain ⟨c, hc⟩ := Option.isSome_iff_exists.mp (hr (Or.inl hs))
    simp only [State.commitChoice, hs, InputState.commitChoice, hc, Option.map_some',
      Option.some.injEq, exists_eq_left']
    split
    · unfold inputPop
      split
      · exact ⟨rfl, fun _ => hr (Or.inl hs)⟩
      · exact ⟨rfl, fun _ => hr (Or.inl hs)⟩
    · split
      · exact ⟨setState_countdown _ _, setState_choiceReadable _ _⟩
      · exact ⟨rfl, fun _ => hr (Or.inl hs)⟩
  | ConfirmState =>
    obtain ⟨c, hc⟩ := Option.isSome_iff_exists.mp (hr (Or.inr hs))
    simp only [State.commitChoice, hs, ConfirmState.commitChoice, hc, Option.map_some',
      Option.some.injEq, exists_eq_left']
    split
    · exact ⟨setState_countdown _ _, setState_choiceReadable _ _⟩
    · split
      · exact ⟨setState_countdown _ _, setState_choiceReadable _ _⟩
      · exact ⟨setState_countdown _ _, setState_choiceReadable _ _⟩

/-- After `n` successive calls from a countdown of 74 the countdown is
`74 - n % 75`, and the calls are all defined. -/
theorem checkCountdownN_countdown (ctx : DialerContext) (h74 : ctx.countdown = 74)
    (hr : ChoiceReadable ctx) (n : Nat) :
    ∃ c, checkCountdownN n ctx = some c ∧ c.countdown = 74 - ((n % 75 : Nat) : Int) ∧
      ChoiceReadable c := by
  induction n with
  | zero => exact ⟨ctx, rfl, by simp [h74], hr⟩
  | succ n ih =>
    obtain ⟨c, hc, hcd, hcr⟩ := ih
    simp only [checkCountdownN, hc, Option.some_bind, checkCountdown]
    by_cases hpos : c.countdown > 0
    · rw [if_pos hpos]
      refine ⟨_, rfl, ?_, hcr⟩
      show c.countdown - 1 = _
      omega
    · rw [if_neg hpos]
      obtain ⟨c1, h1, h1cd, h1r⟩ :=
        commitChoice_total { c with countdown := countdown_ticks } hcr
      refine ⟨c1, h1, ?_, h1r⟩
      rw [h1cd]
      show countdown_ticks = _
      unfold countdown_ticks
      omega

/-- C2: from a context whose countdown is 74 (and whose current choice is
readable where the carousel is drawn), in a run of successive calls of
`checkCountdown` every call is defined, and call number `n + 1`, made on the
context `c` left by the first `n` calls, does one of two things.  When
`n + 1` is not a multiple of 75 the countdown is positive and the call only
decrements it: no commit is dispatched and nothing else changes.  When
`n + 1` is a multiple of 75 (calls 75, 150, 225, ...) the countdown has
reached 0 and the call is exactly the commit of the state on the context with
the countdown reset to 74, and the countdown is 74 right after it. -/
theorem checkCountdown_commit_period (ctx : DialerContext)
    (h74 : ctx.countdown = 74) (hr : ChoiceReadable ctx) (n : Nat) :
    ∃ c c1, checkCountdownN n ctx = some c ∧ checkCountdown c = some c1 ∧
      checkCountdownN (n + 1) ctx = some c1 ∧
      ((n + 1) % 75 ≠ 0 →
        0 < c.countdown ∧ c1 = { c with countdown := c.countdown - 1 }) ∧
      ((n + 1) % 75 = 0 →
        c.countdown = 0 ∧
        State.commitChoice { c with countdown := 74 } = some c1 ∧
        c1.countdown = 74) := by
  obtain ⟨c, hc, hcd, hcr⟩ := checkCountdownN_countdown ctx h74 hr n
  obtain ⟨c1, hc1, hcd1, _⟩ := checkCountdownN_countdown ctx h74 hr (n + 1)
  have hstep : checkCountdown c = some c1 := by
    simpa only [checkCountdownN, hc, Option.some_bind] using hc1
  refine ⟨c, c1, hc, hstep, hc1, ?_, ?_⟩
  · intro hmod
    have hpos : c.countdown > 0 := by omega
    refine ⟨hpos, ?_⟩
    simp only [checkCountdown, if_pos hpos, Option.some.injEq] at hstep
    exact hstep.symm
  · intro hmod
    have hzero : c.countdown = 0 := by omega
    have hnpos : ¬ c.countdown > 0 := by omega
    simp only [checkCountdown, if_neg hnpos] at hstep
    refine ⟨hzero, hstep, ?_⟩
    rw [hcd1, hmod]
    rfl

/-- Witness for C2: `INPUT` just entered with the countdown at 74 and `"0"` as
the current choice; call 75 is the commit. -/
theorem checkCountdown_commit_period_witness :
    ∃ c c1,
      checkCountdownN 74 { setState .InputState DialerContext.new with countdown := 74 }
        = some c ∧
      checkCountdown c = some c1 ∧
      checkCountdownN (74 + 1)
          { setState .InputState DialerContext.new with countdown := 74 }
        = some c1 ∧
      ((74 + 1) % 75 ≠ 0 →
        0 < c.countdown ∧ c1 = { c with countdown := c.countdown - 1 }) ∧
      ((74 + 1) % 75 = 0 →
        c.countdown = 0 ∧
        State.commitChoice { c with countdown := 74 } = some c1 ∧
        c1.countdown = 74) :=
  checkCountdown_commit_period
    { setState .InputState DialerContext.new with countdown := 74 } rfl (by decide) 74

/-- A commit never touches the countdown. -/
theorem commitChoice_countdown (ctx c : DialerContext)
    (h : State.commitChoice ctx = some c) : c.countdown = ctx.countdown := by
  unfold State.commitChoice at h
  split at h
  · simp only [InputState.commitChoice, Option.map_eq_some'] at h
    obtain ⟨choice, _, rfl⟩ := h
    split
    · unfold inputPop
      split <;> rfl
    · split
      · exact setState_countdown _ _
      · rfl
  · simp only [ConfirmState.commitChoice, Option.map_eq_some'] at h
    obtain ⟨choice, _, rfl⟩ := h
    split
    · exact setState_countdown _ _
    · split <;> exact setState_countdown _ _
  · rw [← Option.some.inj h]
  · rw [← Option.some.inj h]

/-- A movement dispatched in `WAIT` never touches the countdown. -/
theorem waitState_eyeMovement_countdown (prev : EyeMovement) (points : Int)
    (m : EyeMovement) (ctx : DialerContext) :
    (WaitState.eyeMovement prev points m ctx).countdown = ctx.countdown := by
  unfold WaitState.eyeMovement
  by_cases hm : m = CENTER
  · rw [if_pos hm]
  · rw [if_neg hm]
    dsimp only
    split_ifs <;> rfl

/-- Counterexample to C8 as stated: on the freshly constructed controller,
four alternating glances 9 ticks apart leave `WAIT` active, the fifth glance
(tick 37) makes the transition `WAIT -> INPUT`, and the countdown right after
that transition is 37, not 74. -/
theorem countdown_not_reset_entering_input :
    (runHost (alternating LEFT [9, 9, 9, 9]) DialerContext.new).map
        (fun c => c.state) = some (State.WaitState RIGHT 112) ∧
      (runHost (alternating LEFT [9, 9, 9, 9] ++ frame (gaze LEFT))
          DialerContext.new).map (fun c => (c.state, c.countdown))
        = some (State.InputState, 37) := by
  decide!

/-- C8, amended: entering a state does not touch the countdown (`setState`
with any `enter` hook leaves it as it was).  Whenever a call of
`checkCountdown` changes the active state (the transitions made by a commit:
`INPUT -> CONFIRM`, `CONFIRM -> CALL / INPUT / WAIT`) the countdown is 74 right
after, whatever it was before; a movement dispatched in `WAIT` (which is what
makes `WAIT -> INPUT`) and a tick dispatched in `CALL` (which is what makes
`CALL -> WAIT`) leave the countdown at the value it had. -/
theorem countdown_on_transitions :
    (∀ (s : State) (ctx : DialerContext),
        (setState s ctx).countdown = ctx.countdown) ∧
      (∀ ctx c : DialerContext, checkCountdown ctx = some c →
        c.state ≠ ctx.state → c.countdown = 74) ∧
      (∀ (ctx c : DialerContext) (prev : EyeMovement) (points : Int) (m : EyeMovement),
        ctx.state = .WaitState prev points → State.eyeMovement m ctx = some c →
        c.countdown = ctx.countdown) ∧
      (∀ (ctx : DialerContext) (ticks : Int), ctx.state = .PhoneCallState ticks →
        (State.tick ctx).countdown = ctx.countdown) := by
  refine ⟨setState_countdown, ?_, ?_, ?_⟩
  · intro ctx c h hne
    unfold checkCountdown at h
    split at h
    · rw [← Option.some.inj h] at hne
      exact absurd rfl hne
    · exact commitChoice_countdown _ _ h
  · intro ctx c prev points m hs h
    simp only [State.eyeMovement, hs, Option.some.injEq] at h
    rw [← h]
    exact waitState_eyeMovement_countdown prev points m ctx
  · intro ctx ticks hs
    simp only [State.tick, hs, PhoneCallState.tick]
    split
    · exact setState_countdown _ _
    · rfl

/-- Witness for C8, amended: `INPUT` showing `"Call"` with the countdown at 0;
the call of `checkCountdown` commits, enters `CONFIRM`, and the countdown is 74
right after. -/
theorem countdown_on_transitions_witness :
    checkCountdown
        { setState .InputState DialerContext.new with
          current_choice_index := 11, countdown := 0 }
      = some { setState .ConfirmState DialerContext.new with countdown := 74 } ∧
    ({ setState .ConfirmState DialerContext.new with countdown := 74 } :
        DialerContext).state
      ≠ ({ setState .InputState DialerContext.new with
          current_choice_index := 11, countdown := 0 } : DialerContext).state ∧
    ({ setState .ConfirmState DialerContext.new with countdown := 74 } :
        DialerContext).countdown = 74 :=
  ⟨by decide, by decide,
    countdown_on_transitions.2.1
      { setState .InputState DialerContext.new with
        current_choice_index := 11, countdown := 0 }
      { setState .ConfirmState DialerContext.new with countdown := 74 }
      (by decide) (by decide)⟩

/-! ## The debounce -/

theorem setState_sameDetector (s : State) (ctx : DialerContext) :
    SameDetector (setState s ctx) ctx := by
  cases s <;> exact ⟨rfl, rfl⟩

theorem commitChoice_sameDetector (ctx c : DialerContext)
    (h : State.commitChoice ctx = some c) : SameDetector c ctx := by
  unfold State.commitChoice at h
  split at h
  · simp only [InputState.commitChoice, Option.map_eq_some'] at h
    obtain ⟨choice, _, rfl⟩ := h
    split
    · unfold inputPop
      split <;> exact ⟨rfl, rfl⟩
    · split
      · exact setState_sameDetector _ _
      · exact ⟨rfl, rfl⟩
  · simp only [ConfirmState.commitChoice, Option.map_eq_some'] at h
    obtain ⟨choice, _, rfl⟩ := h
    split
    · exact setState_sameDetector _ _
    · split <;> exact setState_sameDetector _ _
  · rw [← Option.some.inj h]
    exact ⟨rfl, rfl⟩
  · rw [← Option.some.inj h]
    exact ⟨rfl, rfl⟩

theorem checkCountdown_sameDetector (ctx c : DialerContext)
    (h : checkCountdown ctx = some c) : SameDetector c ctx := by
  unfold checkCountdown at h
  split at h
  · rw [← Option.some.inj h]
    exact ⟨rfl, rfl⟩
  · exact commitChoice_sameDetector { ctx with countdown := countdown_ticks } _ h

theorem select_sameDetector (ctx c : DialerContext)
    (h : selectNext ctx = some c ∨ selectPrev ctx = some c) : SameDetector c ctx := by
  rcases h with h | h
  · simp only [selectNext, Option.map_eq_some'] at h
    obtain ⟨i, _, rfl⟩ := h
    exact ⟨rfl, rfl⟩
  · simp only [selectPrev, Option.map_eq_some'] at h
    obtain ⟨i, _, rfl⟩ := h
    exact ⟨rfl, rfl⟩

theorem inputState_eyeMovement_sameDetector (m : EyeMovement) (ctx c : DialerContext)
    (h : InputState.eyeMovement m ctx = some c) : SameDetector c ctx := by
  simp only [InputState.eyeMovement, Option.map_eq_some'] at h
  obtain ⟨c0, h0, rfl⟩ := h
  have hs : SameDetector c0 ctx := by
    split at h0
    · exact select_sameDetector _ _ (Or.inr h0)
    · split at h0
      · exact select_sameDetector _ _ (Or.inl h0)
      · rw [← Option.some.inj h0]
        exact ⟨rfl, rfl⟩
  split
  · exact hs
  · exact hs

theorem waitState_eyeMovement_sameDetector (prev : EyeMovement) (points : Int)
    (m : EyeMovement) (ctx : DialerContext) :
    SameDetector (WaitState.eyeMovement prev points m ctx) ctx := by
  unfold WaitState.eyeMovement
  by_cases hm : m = CENTER
  · rw [if_pos hm]
    exact ⟨rfl, rfl⟩
  · rw [if_neg hm]
    dsimp only
    split_ifs <;> exact ⟨rfl, rfl⟩

theorem eyeMovement_sameDetector (m : EyeMovement) (ctx c : DialerContext)
    (h : State.eyeMovement m ctx = some c) : SameDetector c ctx := by
  unfold State.eyeMovement at h
  split at h
  · exact inputState_eyeMovement_sameDetector _ _ _ h
  · exact inputState_eyeMovement_sameDetector _ _ _ h
  · rw [← Option.some.inj h]
    exact waitState_eyeMovement_sameDetector _ _ _ _
  · rw [← Option.some.inj h]
    exact ⟨rfl, rfl⟩

theorem stateTick_sameDetector (ctx : DialerContext) :
    SameDetector (State.tick ctx) ctx := by
  unfold State.tick
  split
  · exact ⟨rfl, rfl⟩
  · exact ⟨rfl, rfl⟩
  · unfold WaitState.tick
    split <;> exact ⟨rfl, rfl⟩
  · unfold PhoneCallState.tick
    split
    · exact setState_sameDetector _ _
    · exact ⟨rfl, rfl⟩

/-- The movement dispatched is decided by the debounce counter and the window,
so it is the same before and after `checkCountdown`. -/
theorem dispatchedMovement_congr (a b : DialerContext) (h : SameDetector a b) :
    dispatchedMovement a = dispatchedMovement b := by
  unfold dispatchedMovement getMovingAverage
  rw [h.1, h.2]

/-- What `detectEyeMovement` does, by the movement it dispatches: nothing but
a decrement of the debounce counter when it dispatches none; otherwise the
virtual call `eyeMovement`, and the counter set to 8 after a movement that is
not `CENTER`. -/
theorem detectEyeMovement_eq (ctx : DialerContext) :
    detectEyeMovement ctx =
      match dispatchedMovement ctx with
      | none => some { ctx with wait_ticks := ctx.wait_ticks - 1 }
      | some m =>
          (State.eyeMovement m { ctx with movement := m }).map fun c =>
            if m ≠ CENTER then { c with wait_ticks := 8 } else c := by
  unfold detectEyeMovement dispatchedMovement
  split <;> rfl

/-- The debounce counter after a tick. -/
theorem tick_wait_ticks (ctx c : DialerContext) (h : DialerContext.tick ctx = some c) :
    c.wait_ticks =
      match dispatchedMovement ctx with
      | none => ctx.wait_ticks - 1
      | some m => if m ≠ CENTER then 8 else ctx.wait_ticks := by
  simp only [DialerContext.tick, bind, Option.bind_eq_some, pure, Option.some.injEq] at h
  obtain ⟨_, _, c1, h1, c2, h2, rfl⟩ := h
  have s1 := checkCountdown_sameDetector _ _ h1
  rw [(stateTick_sameDetector c2).1, ← dispatchedMovement_congr _ _ s1, ← s1.1]
  rw [detectEyeMovement_eq] at h2
  cases hd : dispatchedMovement c1 with
  | none =>
    rw [hd] at h2
    rw [← Option.some.inj h2]
  | some m =>
    rw [hd] at h2
    simp only [Option.map_eq_some'] at h2
    obtain ⟨c3, h3, rfl⟩ := h2
    have s3 := eyeMovement_sameDetector _ _ _ h3
    dsimp only
    split
    · rfl
    · exact s3.1

theorem keypress_sameDetector (key : Int) (ctx c : DialerContext)
    (h : keypress key ctx = some c) : SameDetector c ctx := by
  unfold keypress at h
  split at h
  · exact select_sameDetector _ _ (Or.inl h)
  · split at h
    · exact select_sameDetector _ _ (Or.inr h)
    · rw [← Option.some.inj h]
      exact ⟨rfl, rfl⟩

/-- While the debounce counter covers the ticks of a run, each tick only
counts it down. -/
theorem runHost_wait_ticks (es : List HostCall) (c1 c : DialerContext)
    (h : runHost es c1 = some c) (hle : (countTicks es : Int) ≤ c1.wait_ticks) :
    c.wait_ticks = c1.wait_ticks - countTicks es := by
  induction es generalizing c1 with
  | nil =>
    simp only [runHost, Option.some.injEq] at h
    simp [← h, countTicks]
  | cons e es ih =>
    simp only [runHost, Option.bind_eq_some] at h
    obtain ⟨c2, h2, h3⟩ := h
    cases e with
    | updatePupilPosition lx ly rx ry =>
      have hcount : countTicks (HostCall.updatePupilPosition lx ly rx ry :: es)
          = countTicks es := by
        simp [countTicks, List.count_cons]
      simp only [HostCall.apply, Option.some.injEq] at h2
      have hw : c2.wait_ticks = c1.wait_ticks := by rw [← h2]; rfl
      rw [hcount] at hle ⊢
      rw [ih c2 h3 (by omega), hw]
    | keypress key =>
      have hcount : countTicks (HostCall.keypress key :: es) = countTicks es := by
        simp [countTicks, List.count_cons]
      simp only [HostCall.apply] at h2
      have hw : c2.wait_ticks = c1.wait_ticks := (keypress_sameDetector _ _ _ h2).1
      rw [hcount] at hle ⊢
      rw [ih c2 h3 (by omega), hw]
    | tick =>
      have hcount : countTicks (HostCall.tick :: es) = countTicks es + 1 := by
        simp [countTicks, List.count_cons]
      simp only [HostCall.apply] at h2
      rw [hcount] at hle ⊢
      push_cast at hle ⊢
      have hpos : c1.wait_ticks > 0 := by omega
      have hw := tick_wait_ticks _ _ h2
      simp only [dispatchedMovement, if_pos hpos] at hw
      have hw2 : c2.wait_ticks = c1.wait_ticks - 1 := hw
      rw [ih c2 h3 (by omega), hw2]
      omega

/-- C5: let a tick at `ctx` classify the movement as `m`, not `CENTER`, and
dispatch it to the active state, and let any host calls (pupil samples, ticks,
key presses) follow that contain at most 8 ticks.  Then the debounce counter
is 8 minus the number of those ticks, and as long as fewer than 8 ticks have
followed the next tick dispatches no movement to the state: its call of
`detectEyeMovement` only decrements the counter.  So a second detection comes
no sooner than the 9th tick after the first. -/
theorem debounce_blocks_eight_ticks (ctx c1 c : DialerContext) (m : EyeMovement)
    (es : List HostCall)
    (hd : dispatchedMovement ctx = some m) (hm : m ≠ CENTER)
    (h1 : DialerContext.tick ctx = some c1)
    (hrun : runHost es c1 = some c) (hcount : countTicks es ≤ 8) :
    c.wait_ticks = 8 - countTicks es ∧
      (countTicks es < 8 →
        dispatchedMovement c = none ∧
        ∀ c2, checkCountdown c = some c2 →
          detectEyeMovement c2 = some { c2 with wait_ticks := c2.wait_ticks - 1 }) := by
  have hw1 : c1.wait_ticks = 8 := by
    have hw := tick_wait_ticks _ _ h1
    simpa only [hd, if_pos hm] using hw
  have hw : c.wait_ticks = 8 - countTicks es := by
    rw [runHost_wait_ticks es c1 c hrun (by omega), hw1]
  refine ⟨hw, ?_⟩
  intro hlt
  have hpos : c.wait_ticks > 0 := by omega
  have hnone : dispatchedMovement c = none := by
    simp only [dispatchedMovement, if_pos hpos]
  refine ⟨hnone, ?_⟩
  intro c2 h2
  have s2 := checkCountdown_sameDetector _ _ h2
  rw [detectEyeMovement_eq, dispatchedMovement_congr _ _ s2, hnone]

/-- Witness for C5: the fresh controller sees one far-left sample and ticks
(a `LEFT` detection); three centre frames later the counter is at 5 and the
next tick dispatches nothing. -/
theorem debounce_blocks_eight_ticks_witness :
    dispatchedMovement (updatePupilPosition 0 (1 / 2) 0 (1 / 2) DialerContext.new)
        = some LEFT ∧
      DialerContext.tick (updatePupilPosition 0 (1 / 2) 0 (1 / 2) DialerContext.new)
        = some { DialerContext.new with
            state := .WaitState LEFT 36, position_history := [0], wait_ticks := 8,
            countdown := 73, movement := LEFT } ∧
      runHost (idleFrames 3)
          { DialerContext.new with
            state := .WaitState LEFT 36, position_history := [0], wait_ticks := 8,
            countdown := 73, movement := LEFT }
        = some { DialerContext.new with
            state := .WaitState LEFT 33, position_history := [1 / 2, 1 / 2, 1 / 2],
            wait_ticks := 5, countdown := 70, movement := LEFT } ∧
      dispatchedMovement
          { DialerContext.new with
            state := .WaitState LEFT 33, position_history := [1 / 2, 1 / 2, 1 / 2],
            wait_ticks := 5, countdown := 70, movement := LEFT }
        = none :=
  ⟨by decide!, by decide!, by decide!,
    ((debounce_blocks_eight_ticks
      (updatePupilPosition 0 (1 / 2) 0 (1 / 2) DialerContext.new)
      { DialerContext.new with
        state := .WaitState LEFT 36, position_history := [0], wait_ticks := 8,
        countdown := 73, movement := LEFT }
      { DialerContext.new with
        state := .WaitState LEFT 33, position_history := [1 / 2, 1 / 2, 1 / 2],
        wait_ticks := 5, countdown := 70, movement := LEFT }
      LEFT (idleFrames 3) (by decide!) (by decide) (by decide!) (by decide!)
      (by decide)).2 (by decide)).1⟩

theorem reward_of_nonneg (p : Int) (hp : 0 ≤ p) :
    truncToInt ((p : ℚ) + 3 / 2 * (ticks_per_seconds : ℚ)) = p + 37 := by
  have h0 : (0 : ℚ) ≤ (p : ℚ) := by exact_mod_cast hp
  have hq : (0 : ℚ) ≤ (p : ℚ) + 3 / 2 * (ticks_per_seconds : ℚ) := by
    unfold ticks_per_seconds
    push_cast
    linarith
  unfold truncToInt
  rw [if_pos hq, Int.floor_int_add]
  have : ⌊(3 / 2 * (ticks_per_seconds : ℚ) : ℚ)⌋ = 37 := by
    unfold ticks_per_seconds
    rw [Int.floor_eq_iff]
    norm_num
  rw [this]

theorem popFrontWhileLong_eq_drop (l : List F32) :
    popFrontWhileLong l = l.drop (l.length - 3) := by
  induction l with
  | nil => rfl
  | cons x xs ih =>
    unfold popFrontWhileLong
    split
    · rename_i h
      simp only [List.length_cons, moving_average_size] at h
      rw [ih]
      have : (x :: xs).length - 3 = (xs.length - 3) + 1 := by
        simp only [List.length_cons]; omega
      rw [this, List.drop_succ_cons]
    · rename_i h
      simp only [List.length_cons, moving_average_size] at h
      have : (x :: xs).length - 3 = 0 := by
        simp only [List.length_cons]; omega
      rw [this, List.drop_zero]

/-- The state object after `state->tick`, from the state object before. -/
theorem stateTick_state (a : DialerContext) :
    (State.tick a).state =
      match a.state with
      | .WaitState prev p => .WaitState prev (if p > 0 then p - 1 else p)
      | .PhoneCallState t => if t - 1 = 0 then .WaitState CENTER 0 else .PhoneCallState (t - 1)
      | s => s := by
  unfold State.tick
  split <;> rename_i h <;> simp only [h]
  · unfold WaitState.tick
    split_ifs
    · rfl
    · exact h
  · unfold PhoneCallState.tick
    split_ifs <;> rfl

/-- The state object after `WaitState::eyeMovement` with a movement that is
not `CENTER`: the reward is 37 on a change of direction, and `INPUT` is entered
once the score is at least 125. -/
theorem waitState_eyeMovement_state (ctx : DialerContext) (prev m : EyeMovement)
    (p : Int) (hp : 0 ≤ p) (hm : m ≠ CENTER) :
    (WaitState.eyeMovement prev p m ctx).state =
      if (if prev ≠ m then p + 37 else p) ≥ 125 then State.InputState
      else State.WaitState m (if prev ≠ m then p + 37 else p) := by
  unfold WaitState.eyeMovement
  rw [if_neg hm]
  simp only [reward_of_nonneg p hp]
  simp only [ticks_per_seconds]
  generalize (if prev ≠ m then p + 37 else p) = q
  by_cases hge : q ≥ 125
  · have hge2 : q ≥ 25 * 5 := by omega
    rw [if_pos hge, if_pos hge2]
    rfl
  · have hge2 : ¬ q ≥ 25 * 5 := by omega
    rw [if_neg hge, if_neg hge2]

theorem log2Fuel_spec (fuel n : Nat) (hn : 1 ≤ n) (hf : n ≤ fuel) :
    2 ^ log2Fuel fuel n ≤ n ∧ n < 2 ^ (log2Fuel fuel n + 1) := by
  induction fuel generalizing n with
  | zero => omega
  | succ fuel ih =>
    unfold log2Fuel
    by_cases h2 : n < 2
    · rw [if_pos h2]
      constructor <;> simp <;> omega
    · rw [if_neg h2]
      obtain ⟨h1, h3⟩ := ih (n / 2) (by omega) (by omega)
      constructor
      · rw [pow_succ]; omega
      · rw [pow_succ]; omega

theorem floorLog2_spec (q : ℚ) (hq : 0 < q) :
    (2 : ℚ) ^ floorLog2 q ≤ q ∧ q < (2 : ℚ) ^ (floorLog2 q + 1) := by
  have hnum : 0 < q.num := Rat.num_pos.mpr hq
  have hden : 0 < q.den := q.den_pos
  obtain ⟨a1, a2⟩ := log2Fuel_spec q.num.natAbs q.num.natAbs (by omega) le_rfl
  obtain ⟨b1, b2⟩ := log2Fuel_spec q.den q.den (by omega) le_rfl
  generalize ha : log2Fuel q.num.natAbs q.num.natAbs = a at a1 a2
  generalize hb : log2Fuel q.den q.den = b at b1 b2
  have hqeq : q = (q.num.natAbs : ℚ) / (q.den : ℚ) := by
    have h2 : (q.num.natAbs : ℚ) = (q.num : ℚ) := by
      rw [Nat.cast_natAbs, abs_of_pos hnum]
    rw [h2]
    exact (Rat.num_div_den q).symm
  have hd0 : (0 : ℚ) < (q.den : ℚ) := by exact_mod_cast hden
  have A1 : (2 : ℚ) ^ a ≤ (q.num.natAbs : ℚ) := by exact_mod_cast a1
  have A2 : (q.num.natAbs : ℚ) < (2 : ℚ) ^ (a + 1) := by exact_mod_cast a2
  have B1 : (2 : ℚ) ^ b ≤ (q.den : ℚ) := by exact_mod_cast b1
  have B2 : (q.den : ℚ) < (2 : ℚ) ^ (b + 1) := by exact_mod_cast b2
  have hupper : q < (2 : ℚ) ^ ((a : Int) - (b : Int) + 1) := by
    have : (2 : ℚ) ^ ((a : Int) - (b : Int) + 1) = (2 : ℚ) ^ (a + 1) / (2 : ℚ) ^ b := by
      rw [show (a : Int) - (b : Int) + 1 = ((a + 1 : Nat) : Int) - ((b : Nat) : Int) by push_cast; ring]
      rw [zpow_sub₀ (by norm_num), zpow_natCast, zpow_natCast]
    rw [this, hqeq, div_lt_div_iff₀ hd0 (by positivity)]
    calc (q.num.natAbs : ℚ) * 2 ^ b < 2 ^ (a + 1) * 2 ^ b := by
          apply mul_lt_mul_of_pos_right A2 (by positivity)
      _ ≤ 2 ^ (a + 1) * (q.den : ℚ) := by
          apply mul_le_mul_of_nonneg_left B1 (by positivity)
  have hlower : (2 : ℚ) ^ ((a : Int) - (b : Int) - 1) ≤ q := by
    have : (2 : ℚ) ^ ((a : Int) - (b : Int) - 1) = (2 : ℚ) ^ a / (2 : ℚ) ^ (b + 1) := by
      rw [show (a : Int) - (b : Int) - 1 = ((a : Nat) : Int) - ((b + 1 : Nat) : Int) by push_cast; ring]
      rw [zpow_sub₀ (by norm_num), zpow_natCast, zpow_natCast]
    rw [this, hqeq, div_le_div_iff₀ (by positivity) hd0]
    calc (2 : ℚ) ^ a * (q.den : ℚ) ≤ 2 ^ a * 2 ^ (b + 1) := by
          apply mul_le_mul_of_nonneg_left B2.le (by positivity)
      _ ≤ (q.num.natAbs : ℚ) * 2 ^ (b + 1) := by
          apply mul_le_mul_of_nonneg_right A1 (by positivity)
  unfold floorLog2
  simp only [ha, hb]
  by_cases hc : (2 : ℚ) ^ ((a : Int) - (b : Int)) ≤ q
  · rw [if_pos hc]
    exact ⟨hc, hupper⟩
  · rw [if_neg hc]
    refine ⟨hlower, ?_⟩
    rw [sub_add_cancel]
    exact lt_of_not_le hc

theorem floorLog2_unique (q : ℚ) (e : Int) (h1 : (2 : ℚ) ^ e ≤ q)
    (h2 : q < (2 : ℚ) ^ (e + 1)) : floorLog2 q = e := by
  have hq : 0 < q := lt_of_lt_of_le (by positivity) h1
  obtain ⟨s1, s2⟩ := floorLog2_spec q hq
  have k1 : e < floorLog2 q + 1 :=
    (zpow_lt_zpow_iff_right₀ (by norm_num : (1 : ℚ) < 2)).1 (lt_of_le_of_lt h1 s2)
  have k2 : floorLog2 q < e + 1 :=
    (zpow_lt_zpow_iff_right₀ (by norm_num : (1 : ℚ) < 2)).1 (lt_of_le_of_lt s1 h2)
  omega

theorem roundNearestEven_intCast (k : Int) : roundNearestEven (k : ℚ) = k := by
  unfold roundNearestEven
  simp


theorem round_eq_fin (fmt : FloatFormat) (q r : ℚ) (hq : q ≠ 0) :
    fmt.round q = .fin r ↔
      (roundNearestEven (q / (2 : ℚ) ^ fmt.ulpExp q) : ℚ) * (2 : ℚ) ^ fmt.ulpExp q = r ∧
        |r| < (2 : ℚ) ^ fmt.emax := by
  unfold FloatFormat.round
  rw [if_neg hq]
  simp only
  split_ifs with h
  · constructor
    · intro h'
      exact absurd h' (by simp)
    · rintro ⟨h1, h2⟩
      rw [h1] at h
      exact absurd h (not_le.mpr h2)
  · constructor
    · intro h'
      have h1 : _ = r := FP.fin.inj h'
      exact ⟨h1, by rw [← h1]; exact not_le.mp h⟩
    · rintro ⟨h1, _⟩
      rw [h1]

/-- A value on the grid of its own unit in the last place, and in range, is
left as it is by rounding. -/
theorem round_of_grid (fmt : FloatFormat) (q : ℚ) (n : Int)
    (hn : q = (n : ℚ) * (2 : ℚ) ^ fmt.ulpExp q) (hr : |q| < (2 : ℚ) ^ fmt.emax) :
    fmt.round q = .fin q := by
  by_cases hq : q = 0
  · rw [hq]
    rfl
  · rw [round_eq_fin fmt q q hq]
    refine ⟨?_, hr⟩
    have h2 : (2 : ℚ) ^ fmt.ulpExp q ≠ 0 := by positivity
    have : q / (2 : ℚ) ^ fmt.ulpExp q = (n : ℚ) := by
      rw [div_eq_iff h2]
      exact hn
    rw [this, roundNearestEven_intCast]
    exact hn.symm

/-- A value that rounding leaves as it is lies on the grid of its unit in the
last place, and in range. -/
theorem grid_of_round (fmt : FloatFormat) (q : ℚ) (hq : q ≠ 0)
    (h : fmt.round q = .fin q) :
    (∃ n : Int, q = (n : ℚ) * (2 : ℚ) ^ fmt.ulpExp q) ∧ |q| < (2 : ℚ) ^ fmt.emax := by
  obtain ⟨h1, h2⟩ := (round_eq_fin fmt q q hq).1 h
  exact ⟨⟨_, h1.symm⟩, h2⟩

theorem floorLog2_two_mul (q : ℚ) (hq : 0 < q) : floorLog2 (2 * q) = floorLog2 q + 1 := by
  obtain ⟨s1, s2⟩ := floorLog2_spec q hq
  apply floorLog2_unique
  · rw [zpow_add_one₀ (by norm_num), mul_comm]
    linarith
  · rw [zpow_add_one₀ (by norm_num : (2 : ℚ) ≠ 0) (floorLog2 q + 1), mul_comm]
    linarith

/-- Doubling a value of the format is exact unless it overflows. -/
theorem round_double (fmt : FloatFormat) (q : ℚ) (h : fmt.round q = .fin q)
    (hr : |q + q| < (2 : ℚ) ^ fmt.emax) : fmt.round (q + q) = .fin (q + q) := by
  by_cases hq : q = 0
  · rw [hq]
    simp [FloatFormat.round]
  · obtain ⟨⟨n, hn⟩, _⟩ := grid_of_round fmt q hq h
    have habs : |q + q| = 2 * |q| := by
      rw [← two_mul, abs_mul]
      norm_num
    have hfl : floorLog2 |q + q| = floorLog2 |q| + 1 := by
      rw [habs]
      exact floorLog2_two_mul _ (abs_pos.mpr hq)
    have he : fmt.ulpExp (q + q) = fmt.ulpExp q + 1 ∨ fmt.ulpExp (q + q) = fmt.ulpExp q := by
      unfold FloatFormat.ulpExp
      rw [hfl]
      omega
    rcases he with he | he
    · apply round_of_grid fmt (q + q) n _ hr
      rw [he, zpow_add_one₀ (by norm_num)]
      linear_combination 2 * hn
    · apply round_of_grid fmt (q + q) (2 * n) _ hr
      rw [he]
      push_cast
      linear_combination 2 * hn


theorem roundNearestEven_error (x : ℚ) : |(roundNearestEven x : ℚ) - x| ≤ 1 / 2 := by
  have h1 := Int.floor_le x
  have h2 := Int.lt_floor_add_one x
  unfold roundNearestEven
  simp only
  split_ifs <;> push_cast <;> rw [abs_le] <;> constructor <;> linarith

/-- In the normal range the unit in the last place is at most
`|q| * 2 ^ (1 - prec)`. -/
theorem ulp_normal (fmt : FloatFormat) (q : ℚ)
    (hlo : (2 : ℚ) ^ (fmt.emin + (fmt.prec : Int) - 1) ≤ |q|) :
    (2 : ℚ) ^ fmt.ulpExp q ≤ |q| * (2 : ℚ) ^ (1 - (fmt.prec : Int)) := by
  have hq : 0 < |q| := lt_of_lt_of_le (by positivity) hlo
  obtain ⟨s1, s2⟩ := floorLog2_spec |q| hq
  have k1 : fmt.emin + (fmt.prec : Int) - 1 < floorLog2 |q| + 1 :=
    (zpow_lt_zpow_iff_right₀ (by norm_num : (1 : ℚ) < 2)).1 (lt_of_le_of_lt hlo s2)
  have he : fmt.ulpExp q = floorLog2 |q| + (1 - (fmt.prec : Int)) := by
    unfold FloatFormat.ulpExp
    omega
  rw [he, zpow_add₀ (by norm_num)]
  exact mul_le_mul_of_nonneg_right s1 (by positivity)

/-- In the normal range, and short of overflow, rounding gives a finite value
with relative error at most `2 ^ (-prec)`. -/
theorem round_normal (fmt : FloatFormat) (q : ℚ)
    (hlo : (2 : ℚ) ^ (fmt.emin + (fmt.prec : Int) - 1) ≤ |q|)
    (hhi : |q| * (1 + (2 : ℚ) ^ (-(fmt.prec : Int))) < (2 : ℚ) ^ fmt.emax) :
    ∃ r, fmt.round q = .fin r ∧ |r - q| ≤ |q| * (2 : ℚ) ^ (-(fmt.prec : Int)) := by
  have hq0 : 0 < |q| := lt_of_lt_of_le (by positivity) hlo
  have hq : q ≠ 0 := abs_pos.mp hq0
  have hu := ulp_normal fmt q hlo
  have hpow : (2 : ℚ) ^ (1 - (fmt.prec : Int)) / 2 = (2 : ℚ) ^ (-(fmt.prec : Int)) := by
    rw [show (1 - (fmt.prec : Int)) = -(fmt.prec : Int) + 1 by ring,
      zpow_add_one₀ (by norm_num)]
    ring
  have hpos : (0 : ℚ) < (2 : ℚ) ^ fmt.ulpExp q := by positivity
  have he := roundNearestEven_error (q / (2 : ℚ) ^ fmt.ulpExp q)
  have herr : |(roundNearestEven (q / (2 : ℚ) ^ fmt.ulpExp q) : ℚ) * (2 : ℚ) ^ fmt.ulpExp q - q|
      ≤ |q| * (2 : ℚ) ^ (-(fmt.prec : Int)) := by
    have : (roundNearestEven (q / (2 : ℚ) ^ fmt.ulpExp q) : ℚ) * (2 : ℚ) ^ fmt.ulpExp q - q =
        ((roundNearestEven (q / (2 : ℚ) ^ fmt.ulpExp q) : ℚ) - q / (2 : ℚ) ^ fmt.ulpExp q)
          * (2 : ℚ) ^ fmt.ulpExp q := by
      field_simp
    rw [this, abs_mul, abs_of_pos hpos]
    calc _ ≤ 1 / 2 * (2 : ℚ) ^ fmt.ulpExp q := mul_le_mul_of_nonneg_right he hpos.le
      _ ≤ 1 / 2 * (|q| * (2 : ℚ) ^ (1 - (fmt.prec : Int))) := by linarith
      _ = |q| * ((2 : ℚ) ^ (1 - (fmt.prec : Int)) / 2) := by ring
      _ = _ := by rw [hpow]
  refine ⟨_, (round_eq_fin fmt q _ hq).2 ⟨rfl, ?_⟩, herr⟩
  have h3 := abs_sub_abs_le_abs_sub
    ((roundNearestEven (q / (2 : ℚ) ^ fmt.ulpExp q) : ℚ) * (2 : ℚ) ^ fmt.ulpExp q) q
  linarith


theorem F32.zero_val : (0 : F32).val = .fin 0 := by decide!

theorem F32.ofSize_one : F32.ofSize 1 = ⟨.fin 1⟩ := by decide!

theorem F32.ofSize_two : F32.ofSize 2 = ⟨.fin 2⟩ := by decide!

theorem F32.ofSize_three : F32.ofSize 3 = ⟨.fin 3⟩ := by decide!

theorem F32.add_val (a b : F32) : (a + b).val = FP.add binary32 a.val b.val := rfl

theorem F32.div_val (a b : F32) : (a / b).val = FP.div binary32 a.val b.val := rfl

theorem FP.div_fin_fin (fmt : FloatFormat) (x y : ℚ) (hy : y ≠ 0) :
    FP.div fmt (.fin x) (.fin y) = fmt.round (x / y) := by
  show (if y = 0 then (if x = 0 then FP.nan else FP.inf (decide (x < 0)))
    else fmt.round (x / y)) = _
  rw [if_neg hy]

theorem F32.ext_val (a b : F32) (h : a.val = b.val) : a = b := by
  cases a
  cases b
  cases h
  rfl

/-- Adding a `float` to `0` gives that `float`. -/
theorem F32.zero_add_float (v : F32) (hv : v.IsFloat) : (0 : F32) + v = v := by
  apply F32.ext_val
  rw [F32.add_val, F32.zero_val]
  unfold F32.IsFloat at hv
  cases hval : v.val with
  | fin q =>
    rw [hval] at hv
    show binary32.round (0 + q) = _
    rw [zero_add]
    exact hv
  | inf s => rfl
  | nan => rfl

/-- Dividing a `float` by `1` gives that `float`. -/
theorem F32.div_one_float (v : F32) (hv : v.IsFloat) : v / ⟨.fin 1⟩ = v := by
  apply F32.ext_val
  rw [F32.div_val]
  unfold F32.IsFloat at hv
  cases hval : v.val with
  | fin q =>
    rw [hval] at hv
    rw [FP.div_fin_fin _ _ _ one_ne_zero, div_one]
    exact hv
  | inf s =>
    show FP.inf (s != decide ((1 : ℚ) < 0)) = _
    have : decide ((1 : ℚ) < 0) = false := by decide
    rw [this]
    cases s <;> rfl
  | nan => rfl

/-- The `float` sum of a `float` with itself, divided by `2`, is that `float`
again, unless the sum overflows. -/
theorem F32.add_self_div_two_float (v : F32) (hv : v.IsFloat)
    (hr : ∀ q, v.val = .fin q → |q| < 2 ^ 127) : (v + v) / ⟨.fin 2⟩ = v := by
  apply F32.ext_val
  rw [F32.div_val, F32.add_val]
  unfold F32.IsFloat at hv
  cases hval : v.val with
  | fin q =>
    rw [hval] at hv
    have hq := hr q hval
    have h2 : |q + q| < (2 : ℚ) ^ binary32.emax := by
      have : |q + q| = 2 * |q| := by
        rw [← two_mul, abs_mul]
        norm_num
      rw [this]
      show 2 * |q| < (2 : ℚ) ^ (128 : Int)
      have e : (2 : ℚ) ^ (128 : Int) = 2 * 2 ^ 127 := by norm_num
      rw [e]
      linarith
    show FP.div binary32 (binary32.round (q + q)) (FP.fin 2) = _
    rw [round_double binary32 q hv h2]
    rw [FP.div_fin_fin _ _ _ two_ne_zero, add_self_div_two]
    exact hv
  | inf s =>
    show FP.div binary32 (if s = s then FP.inf s else FP.nan) (FP.fin 2) = _
    rw [if_pos rfl]
    show FP.inf (s != decide ((2 : ℚ) < 0)) = _
    have : decide ((2 : ℚ) < 0) = false := by decide
    rw [this]
    cases s <;> rfl
  | nan => rfl


/-- Rounding to `float` in the normal range and short of overflow: a finite
value, with relative error at most `2 ^ (-24)`. -/
theorem round32_normal (q : ℚ) (hlo : 1 / 2 ^ 126 ≤ |q|) (hhi : |q| ≤ 2 ^ 127) :
    ∃ r, binary32.round q = .fin r ∧ |r - q| ≤ |q| / 2 ^ 24 := by
  have e1 : (2 : ℚ) ^ (binary32.emin + (binary32.prec : Int) - 1) = 1 / 2 ^ 126 := by
    show (2 : ℚ) ^ ((-149 : Int) + ((24 : Nat) : Int) - 1) = _
    rw [show ((-149 : Int) + ((24 : Nat) : Int) - 1) = -((126 : Nat) : Int) by norm_num,
      zpow_neg, zpow_natCast]
    norm_num
  have e2 : (2 : ℚ) ^ (-(binary32.prec : Int)) = 1 / 2 ^ 24 := by
    show (2 : ℚ) ^ (-((24 : Nat) : Int)) = _
    rw [zpow_neg, zpow_natCast]
    norm_num
  have e3 : (2 : ℚ) ^ binary32.emax = 2 ^ 128 := by
    show (2 : ℚ) ^ (((128 : Nat) : Int)) = _
    rw [zpow_natCast]
  obtain ⟨r, h1, h2⟩ := round_normal binary32 q (by rw [e1]; exact hlo)
    (by
      rw [e2, e3]
      have : (2 : ℚ) ^ 127 * (1 + 1 / 2 ^ 24) < 2 ^ 128 := by norm_num
      have h0 : (0 : ℚ) ≤ 1 + 1 / 2 ^ 24 := by norm_num
      calc |q| * (1 + 1 / 2 ^ 24) ≤ 2 ^ 127 * (1 + 1 / 2 ^ 24) :=
            mul_le_mul_of_nonneg_right hhi h0
        _ < 2 ^ 128 := this)
  refine ⟨r, h1, ?_⟩
  rw [e2] at h2
  rw [div_eq_mul_one_div]
  exact h2

/-- The `float` average of three equal samples `q` in the normal range: the
sum `q + q` is exact, and the two roundings of `q + q + q` and of the
quotient by `3` leave a relative error of at most `2 ^ (-23) + 2 ^ (-48)`. -/
theorem F32.three_equal_average (q : ℚ) (hv : binary32.round q = .fin q)
    (hlo : 1 / 2 ^ 125 ≤ |q|) (hhi : |q| ≤ 2 ^ 125) :
    ∃ a, ((((0 : F32) + ⟨.fin q⟩) + ⟨.fin q⟩) + ⟨.fin q⟩) / ⟨.fin 3⟩ = ⟨.fin a⟩ ∧
      |a - q| ≤ |q| * (1 / 2 ^ 23 + 1 / 2 ^ 48) := by
  have hq0 : (0 : ℚ) ≤ |q| := abs_nonneg q
  have h3abs : |q + q + q| = 3 * |q| := by
    rw [show q + q + q = 3 * q by ring, abs_mul]
    norm_num
  have h2abs : |q + q| < (2 : ℚ) ^ binary32.emax := by
    have : |q + q| = 2 * |q| := by
      rw [← two_mul, abs_mul]
      norm_num
    rw [this]
    show 2 * |q| < (2 : ℚ) ^ (((128 : Nat) : Int))
    rw [zpow_natCast]
    have : (2 : ℚ) * 2 ^ 125 < 2 ^ 128 := by norm_num
    linarith
  obtain ⟨s, hs, hserr⟩ := round32_normal (q + q + q)
    (by
      rw [h3abs]
      have : (1 : ℚ) / 2 ^ 126 ≤ 3 * (1 / 2 ^ 125) := by norm_num
      linarith)
    (by
      rw [h3abs]
      have : (3 : ℚ) * 2 ^ 125 ≤ 2 ^ 127 := by norm_num
      linarith)
  rw [h3abs] at hserr
  have hs_lo : 3 * |q| - 3 * |q| / 2 ^ 24 ≤ |s| := by
    have := abs_sub_abs_le_abs_sub (q + q + q) s
    rw [h3abs, abs_sub_comm] at this
    linarith
  have hs_hi : |s| ≤ 3 * |q| + 3 * |q| / 2 ^ 24 := by
    have := abs_sub_abs_le_abs_sub s (q + q + q)
    rw [h3abs] at this
    linarith
  have hs3 : |s / 3| = |s| / 3 := by
    rw [abs_div]
    norm_num
  obtain ⟨a, ha, haerr⟩ := round32_normal (s / 3)
    (by
      rw [hs3]
      have : (1 : ℚ) / 2 ^ 126 ≤ (3 * (1 / 2 ^ 125) - 3 * (1 / 2 ^ 125) / 2 ^ 24) / 3 := by
        norm_num
      have h1 : (3 * (1 / 2 ^ 125) - 3 * (1 / 2 ^ 125) / 2 ^ 24) / 3
          ≤ (3 * |q| - 3 * |q| / 2 ^ 24) / 3 := by
        have : (0 : ℚ) ≤ 1 - 1 / 2 ^ 24 := by norm_num
        nlinarith
      linarith)
    (by
      rw [hs3]
      have : (3 * (2 : ℚ) ^ 125 + 3 * 2 ^ 125 / 2 ^ 24) / 3 ≤ 2 ^ 127 := by norm_num
      linarith)
  rw [hs3] at haerr
  refine ⟨a, ?_, ?_⟩
  · rw [F32.zero_add_float ⟨.fin q⟩ (show F32.IsFloat ⟨.fin q⟩ from hv)]
    apply F32.ext_val
    rw [F32.div_val, F32.add_val, F32.add_val]
    show FP.div binary32 (FP.add binary32 (binary32.round (q + q)) (FP.fin q)) (FP.fin 3) = _
    rw [round_double binary32 q hv h2abs]
    show FP.div binary32 (binary32.round (q + q + q)) (FP.fin 3) = _
    rw [hs, FP.div_fin_fin _ _ _ three_ne_zero, ha]
  · have e : a - q = (a - s / 3) + (s - (q + q + q)) / 3 := by ring
    have t1 : |(s - (q + q + q)) / 3| = |s - (q + q + q)| / 3 := by
      rw [abs_div]
      norm_num
    have tri := abs_add (a - s / 3) ((s - (q + q + q)) / 3)
    rw [← e, t1] at tri
    have : |s| / 3 / 2 ^ 24 ≤ (3 * |q| + 3 * |q| / 2 ^ 24) / 3 / 2 ^ 24 := by
      apply div_le_div_of_nonneg_right _ (by positivity)
      apply div_le_div_of_nonneg_right hs_hi (by norm_num)
    have hsum : (3 * |q| + 3 * |q| / 2 ^ 24) / 3 / 2 ^ 24 + 3 * |q| / 2 ^ 24 / 3
        = |q| * (1 / 2 ^ 23 + 1 / 2 ^ 48) := by ring
    have : |s - (q + q + q)| / 3 ≤ 3 * |q| / 2 ^ 24 / 3 := by
      apply div_le_div_of_nonneg_right hserr (by norm_num)
    linarith


theorem floorLog2_lt_of_lt (q : ℚ) (hq : 0 < q) (k : Int) (h : q < (2 : ℚ) ^ k) :
    floorLog2 q < k := by
  obtain ⟨s1, _⟩ := floorLog2_spec q hq
  exact (zpow_lt_zpow_iff_right₀ (by norm_num : (1 : ℚ) < 2)).1 (lt_of_le_of_lt s1 h)

/-- Rounding gives a value of the format: rounding it again changes nothing. -/
theorem round_idempotent (fmt : FloatFormat) (hp : 1 ≤ fmt.prec) (q : ℚ) :
    fmt.convert (fmt.round q) = fmt.round q := by
  by_cases hq : q = 0
  · rw [hq]
    simp [FloatFormat.round, FloatFormat.convert]
  cases hres : fmt.round q with
  | inf s => rfl
  | nan => rfl
  | fin r =>
    show fmt.round r = FP.fin r
    obtain ⟨hr, hrange⟩ := (round_eq_fin fmt q r hq).1 hres
    by_cases hr0 : r = 0
    · rw [hr0]
      simp [FloatFormat.round]
    generalize hn : roundNearestEven (q / (2 : ℚ) ^ fmt.ulpExp q) = n at hr
    have he_min : fmt.emin ≤ fmt.ulpExp q := le_max_right _ _
    have he_fl : floorLog2 |q| - ((fmt.prec : Int) - 1) ≤ fmt.ulpExp q := le_max_left _ _
    have hepos : (0 : ℚ) < (2 : ℚ) ^ fmt.ulpExp q := by positivity
    have hqabs : 0 < |q| := abs_pos.mpr hq
    -- the scaled magnitude is below `2 ^ prec`
    have hx : |q / (2 : ℚ) ^ fmt.ulpExp q| < (2 : ℚ) ^ fmt.prec := by
      rw [abs_div, abs_of_pos hepos, div_lt_iff₀ hepos]
      obtain ⟨_, s2⟩ := floorLog2_spec |q| hqabs
      have : (2 : ℚ) ^ (floorLog2 |q| + 1) ≤ (2 : ℚ) ^ fmt.prec * (2 : ℚ) ^ fmt.ulpExp q := by
        rw [← zpow_natCast, ← zpow_add₀ (by norm_num : (2 : ℚ) ≠ 0)]
        apply zpow_le_zpow_right₀ (by norm_num)
        omega
      linarith
    have hnle : |(n : ℚ)| ≤ (2 : ℚ) ^ fmt.prec := by
      have herr := roundNearestEven_error (q / (2 : ℚ) ^ fmt.ulpExp q)
      rw [hn] at herr
      have h1 : |(n : ℚ)| < (2 : ℚ) ^ fmt.prec + 1 := by
        have := abs_sub_abs_le_abs_sub (n : ℚ) (q / (2 : ℚ) ^ fmt.ulpExp q)
        linarith
      have h2 : |n| < (2 : Int) ^ fmt.prec + 1 := by
        have : ((|n| : Int) : ℚ) < (((2 : Int) ^ fmt.prec + 1 : Int) : ℚ) := by
          push_cast
          exact h1
        exact_mod_cast this
      have h3 : |n| ≤ (2 : Int) ^ fmt.prec := by omega
      have : ((|n| : Int) : ℚ) ≤ (((2 : Int) ^ fmt.prec : Int) : ℚ) := by exact_mod_cast h3
      push_cast at this
      exact this
    have hrabs : |r| = |(n : ℚ)| * (2 : ℚ) ^ fmt.ulpExp q := by
      rw [← hr, abs_mul, abs_of_pos hepos]
    have hrpos : 0 < |r| := abs_pos.mpr hr0
    rcases lt_or_eq_of_le hnle with hlt | heq
    · -- the rounded significand is below `2 ^ prec`: the unit does not grow
      have hfl : floorLog2 |r| < (fmt.prec : Int) + fmt.ulpExp q := by
        apply floorLog2_lt_of_lt _ hrpos
        rw [hrabs, zpow_add₀ (by norm_num : (2 : ℚ) ≠ 0), zpow_natCast]
        exact mul_lt_mul_of_pos_right hlt hepos
      have hle : fmt.ulpExp r ≤ fmt.ulpExp q := by
        show max (floorLog2 |r| - ((fmt.prec : Int) - 1)) fmt.emin ≤ fmt.ulpExp q
        omega
      obtain ⟨d, hd⟩ := Int.eq_ofNat_of_zero_le (sub_nonneg.mpr hle)
      have : (2 : ℚ) ^ fmt.ulpExp q = (2 : ℚ) ^ d * (2 : ℚ) ^ fmt.ulpExp r := by
        rw [← zpow_natCast, ← zpow_add₀ (by norm_num : (2 : ℚ) ≠ 0)]
        congr 1
        omega
      apply round_of_grid fmt r (n * 2 ^ d) _ hrange
      refine hr.symm.trans ?_
      rw [this]
      push_cast
      ring
    · -- the significand rounded up to `2 ^ prec`: the next binade
      have hfl : floorLog2 |r| = (fmt.prec : Int) + fmt.ulpExp q := by
        apply floorLog2_unique
        · rw [hrabs, heq, zpow_add₀ (by norm_num : (2 : ℚ) ≠ 0), zpow_natCast]
        · rw [hrabs, heq, zpow_add_one₀ (by norm_num : (2 : ℚ) ≠ 0),
            zpow_add₀ (by norm_num : (2 : ℚ) ≠ 0), zpow_natCast]
          have : (0 : ℚ) < 2 ^ fmt.prec * 2 ^ fmt.ulpExp q := by positivity
          linarith
      have he : fmt.ulpExp r = fmt.ulpExp q + 1 := by
        show max (floorLog2 |r| - ((fmt.prec : Int) - 1)) fmt.emin = fmt.ulpExp q + 1
        omega
      obtain ⟨p, hp1⟩ : ∃ p, fmt.prec = p + 1 := ⟨fmt.prec - 1, by omega⟩
      have hn2 : (n : ℚ) = 2 ^ (p + 1) ∨ (n : ℚ) = -2 ^ (p + 1) := by
        rw [hp1] at heq
        rcases abs_cases (n : ℚ) with ⟨h1, _⟩ | ⟨h1, _⟩
        · left; rw [← h1]; exact heq
        · right; rw [← heq, h1]; ring
      rcases hn2 with hn2 | hn2
      · apply round_of_grid fmt r (2 ^ p) _ hrange
        refine hr.symm.trans ?_
        rw [he, zpow_add_one₀ (by norm_num : (2 : ℚ) ≠ 0), hn2]
        push_cast
        ring
      · apply round_of_grid fmt r (-2 ^ p) _ hrange
        refine hr.symm.trans ?_
        rw [he, zpow_add_one₀ (by norm_num : (2 : ℚ) ≠ 0), hn2]
        push_cast
        ring


/-- A quotient computed in `float` is a value of `float`. -/
theorem F32.div_isFloat (a b : F32) : (a / b).IsFloat := by
  have hi := round_idempotent binary32 (by decide)
  obtain ⟨x⟩ := a
  obtain ⟨y⟩ := b
  show binary32.convert (FP.div binary32 x y) = FP.div binary32 x y
  cases x with
  | fin x =>
    cases y with
    | fin y =>
      by_cases hy : y = 0
      · subst hy
        by_cases hx : x = 0
        · subst hx
          rfl
        · show binary32.convert (if (0 : ℚ) = 0 then (if x = 0 then FP.nan
              else FP.inf (decide (x < 0))) else binary32.round (x / 0)) = _
          rw [if_pos rfl, if_neg hx]
          show _ = (if (0 : ℚ) = 0 then (if x = 0 then FP.nan
              else FP.inf (decide (x < 0))) else binary32.round (x / 0))
          rw [if_pos rfl, if_neg hx]
          rfl
      · rw [FP.div_fin_fin _ _ _ hy]
        exact hi _
    | inf t => exact hi 0
    | nan => rfl
  | inf s => cases y <;> rfl
  | nan => rfl

/-- A sum computed in `float` is a value of `float`. -/
theorem F32.add_isFloat (a b : F32) : (a + b).IsFloat := by
  have hi := round_idempotent binary32 (by decide)
  obtain ⟨x⟩ := a
  obtain ⟨y⟩ := b
  show binary32.convert (FP.add binary32 x y) = FP.add binary32 x y
  cases x with
  | fin x =>
    cases y with
    | fin y => exact hi _
    | inf t => rfl
    | nan => rfl
  | inf s =>
    cases y with
    | fin y => rfl
    | inf t => cases s <;> cases t <;> rfl
    | nan => rfl
  | nan => rfl


/-! ## The moving average and the classification -/

/-- Counterexample to C12 as stated: three samples `0.44f` from both eyes.
The literal is the `float` `14763950 / 2 ^ 25`, which each call stores
unchanged; the `float` sum of the three rounds down, so does its quotient by
`3`, and `getMovingAverage` returns `14763949 / 2 ^ 25`, one unit in the last
place below the samples. -/
theorem three_equal_samples_average_differs :
    (0.44 : F32) = ⟨.fin (14763950 / 2 ^ 25)⟩ ∧ F32.IsFloat 0.44 ∧
      (feedSamples [⟨0.44, 0.5, 0.44, 0.5⟩, ⟨0.44, 0.5, 0.44, 0.5⟩, ⟨0.44, 0.5, 0.44, 0.5⟩]
        DialerContext.new).position_history = List.replicate 3 (0.44 : F32) ∧
      getMovingAverage
        (feedSamples [⟨0.44, 0.5, 0.44, 0.5⟩, ⟨0.44, 0.5, 0.44, 0.5⟩, ⟨0.44, 0.5, 0.44, 0.5⟩]
          DialerContext.new) = ⟨.fin (14763949 / 2 ^ 25)⟩ ∧
      getMovingAverage
        (feedSamples [⟨0.44, 0.5, 0.44, 0.5⟩, ⟨0.44, 0.5, 0.44, 0.5⟩, ⟨0.44, 0.5, 0.44, 0.5⟩]
          DialerContext.new) ≠ 0.44 := by
  decide!

/-- C12, amended: `getMovingAverage` returns exactly `0.5` on the empty
window.  For every `float` `v` it returns exactly `v` on a window of one
sample `v`, and on a window of two samples `v` unless `v + v` overflows.  On
a window of three samples `v` it returns `v` up to the two roundings, of
`v + v + v` and of the quotient by `3`: exactly `0` for `v = 0`, and for `v`
in the normal range a value within `|v| * (2 ^ (-23) + 2 ^ (-48))` of `v`.
The samples in question are the values of `float`, and every sample that
`updatePupilPosition` stores is one. -/
theorem getMovingAverage_equal_samples :
    (∀ ctx : DialerContext, ctx.position_history = [] → getMovingAverage ctx = 0.5) ∧
      (∀ (ctx : DialerContext) (v : F32), v.IsFloat → ctx.position_history = [v] →
        getMovingAverage ctx = v) ∧
      (∀ (ctx : DialerContext) (v : F32), v.IsFloat →
        (∀ q, v.val = .fin q → |q| < 2 ^ 127) →
        ctx.position_history = [v, v] → getMovingAverage ctx = v) ∧
      (∀ (ctx : DialerContext) (q : ℚ), F32.IsFloat ⟨.fin q⟩ →
        q = 0 ∨ (1 / 2 ^ 125 ≤ |q| ∧ |q| ≤ 2 ^ 125) →
        ctx.position_history = [⟨.fin q⟩, ⟨.fin q⟩, ⟨.fin q⟩] →
        ∃ a, getMovingAverage ctx = ⟨.fin a⟩ ∧
          |a - q| ≤ |q| * (1 / 2 ^ 23 + 1 / 2 ^ 48)) ∧
      (∀ (lx ly rx ry : F32) (ctx : DialerContext), ∃ v : F32, v.IsFloat ∧
        (updatePupilPosition lx ly rx ry ctx).position_history
          = popFrontWhileLong (ctx.position_history ++ [v])) := by
  refine ⟨?_, ?_, ?_, ?_, fun lx ly rx ry ctx =>
    ⟨(lx + rx) / 2, F32.div_isFloat _ _, rfl⟩⟩
  · intro ctx h
    unfold getMovingAverage
    rw [h]
    decide!
  · intro ctx v hv h
    unfold getMovingAverage
    rw [h]
    show ((0 : F32) + v) / F32.ofSize 1 = v
    rw [F32.ofSize_one, F32.zero_add_float v hv, F32.div_one_float v hv]
  · intro ctx v hv hr h
    unfold getMovingAverage
    rw [h]
    show (((0 : F32) + v) + v) / F32.ofSize 2 = v
    rw [F32.ofSize_two, F32.zero_add_float v hv]
    exact F32.add_self_div_two_float v hv hr
  · intro ctx q hv hq h
    unfold getMovingAverage
    rw [h]
    show ∃ a, ((((0 : F32) + ⟨.fin q⟩) + ⟨.fin q⟩) + ⟨.fin q⟩) / F32.ofSize 3 = ⟨.fin a⟩ ∧ _
    rw [F32.ofSize_three]
    rcases hq with hq | ⟨hlo, hhi⟩
    · subst hq
      exact ⟨0, by decide!, by norm_num⟩
    · exact F32.three_equal_average q hv hlo hhi

/-- Witness for C12, amended: the constructed controller has the empty window;
windows of one and of two samples `0.3f`, which is `5033165 / 2 ^ 24`; and a
window of three samples `0.44f`, on which the average is off the samples, within the
bound. -/
theorem getMovingAverage_equal_samples_witness :
    (0.3 : F32) = ⟨.fin (5033165 / 2 ^ 24)⟩ ∧
      (0.44 : F32) = ⟨.fin (14763950 / 2 ^ 25)⟩ ∧
      getMovingAverage DialerContext.new = 0.5 ∧
      getMovingAverage
        { DialerContext.new with position_history := [⟨.fin (5033165 / 2 ^ 24)⟩] }
        = ⟨.fin (5033165 / 2 ^ 24)⟩ ∧
      getMovingAverage
        { DialerContext.new with
          position_history := [⟨.fin (5033165 / 2 ^ 24)⟩, ⟨.fin (5033165 / 2 ^ 24)⟩] }
        = ⟨.fin (5033165 / 2 ^ 24)⟩ ∧
      ∃ a, getMovingAverage
          { DialerContext.new with
            position_history := [⟨.fin (14763950 / 2 ^ 25)⟩, ⟨.fin (14763950 / 2 ^ 25)⟩,
              ⟨.fin (14763950 / 2 ^ 25)⟩] } = ⟨.fin a⟩ ∧
        |a - 14763950 / 2 ^ 25| ≤ |(14763950 / 2 ^ 25 : ℚ)| * (1 / 2 ^ 23 + 1 / 2 ^ 48) :=
  ⟨by decide!, by decide!,
    getMovingAverage_equal_samples.1 DialerContext.new rfl,
    getMovingAverage_equal_samples.2.1 _ ⟨.fin (5033165 / 2 ^ 24)⟩ (by decide!) rfl,
    getMovingAverage_equal_samples.2.2.1 _ ⟨.fin (5033165 / 2 ^ 24)⟩ (by decide!)
      (fun q h => by
        cases h
        rw [abs_lt]
        constructor <;> norm_num) rfl,
    getMovingAverage_equal_samples.2.2.2.1 _ (14763950 / 2 ^ 25) (by decide!)
      (Or.inr (by
        rw [abs_of_pos (by norm_num)]
        constructor <;> norm_num)) rfl⟩


theorem mod_of_lt_two_mul (a n : Nat) (h : a < 2 * n) :
    a % n = if a < n then a else a - n := by
  split_ifs with hlt
  · exact Nat.mod_eq_of_lt hlt
  · rw [Nat.mod_eq_sub_mod (by omega), Nat.mod_eq_of_lt (by omega)]

/-- With the index at `k`, `j` calls of `selectNext` put it at `(k + j) % n`
and change nothing else. -/
theorem selectNextN_of_lt (ctx : DialerContext) (k : Nat)
    (hidx : ctx.current_choice_index = (k : Int)) (hk : k < ctx.choices.length)
    (hlen : ctx.choices.length ≤ 2 ^ 31) (j : Nat) :
    selectNextN j ctx = some { ctx with
      current_choice_index := (((k + j) % ctx.choices.length : Nat) : Int) } := by
  induction j with
  | zero =>
    simp only [selectNextN, Nat.add_zero, Nat.mod_eq_of_lt hk, ← hidx]
  | succ j ih =>
    have hmod : (k + j) % ctx.choices.length < ctx.choices.length :=
      Nat.mod_lt _ (by omega)
    have h := selectNext_of_lt
      { ctx with current_choice_index := (((k + j) % ctx.choices.length : Nat) : Int) }
      _ rfl hmod hlen
    simp only [selectNextN, ih, Option.some_bind]
    rw [h]
    simp only [Nat.mod_add_mod, Nat.add_assoc]

/-- C11: on a carousel of length `n ≥ 1` (no longer than an `int` can index)
with the current index within range, `n` calls of `selectNext` give back the
context they started from, and on the way the index visits every position
exactly once: for each position `p < n` there is exactly one number of calls
`j < n` after which the index is `p`. -/
theorem selectNext_full_cycle (ctx : DialerContext)
    (hlen : ctx.choices.length ≤ 2 ^ 31)
    (h0 : 0 ≤ ctx.current_choice_index)
    (h1 : ctx.current_choice_index < ctx.choices.length) :
    1 ≤ ctx.choices.length ∧
      selectNextN ctx.choices.length ctx = some ctx ∧
      ∀ p : Nat, p < ctx.choices.length →
        ∃! j : Nat, j < ctx.choices.length ∧
          selectNextN j ctx = some { ctx with current_choice_index := (p : Int) } := by
  obtain ⟨k, hk⟩ := Int.eq_ofNat_of_zero_le h0
  have hkn : k < ctx.choices.length := by omega
  generalize hn : ctx.choices.length = n at hkn hlen
  have hstep : ∀ j, selectNextN j ctx = some { ctx with
      current_choice_index := (((k + j) % n : Nat) : Int) } := by
    intro j
    have := selectNextN_of_lt ctx k hk (by omega) (by omega) j
    rwa [hn] at this
  have hinj : ∀ (j p : Nat), selectNextN j ctx
        = some { ctx with current_choice_index := (p : Int) } ↔ (k + j) % n = p := by
    intro j p
    rw [hstep j]
    constructor
    · intro h
      have := congrArg (fun o => o.map DialerContext.current_choice_index) h
      simp only [Option.map_some', Option.some.injEq] at this
      exact_mod_cast this
    · intro h
      rw [h]
  refine ⟨by omega, ?_, ?_⟩
  · rw [hstep n, Nat.add_mod_right, Nat.mod_eq_of_lt hkn, ← hk]
  · intro p hp
    refine ⟨if k ≤ p then p - k else p + n - k, ⟨?_, ?_⟩, ?_⟩
    · split_ifs <;> omega
    · rw [hinj, mod_of_lt_two_mul _ n (by split_ifs <;> omega)]
      split_ifs <;> omega
    · rintro j ⟨hj, hjp⟩
      rw [hinj, mod_of_lt_two_mul _ n (by omega)] at hjp
      split_ifs at hjp ⊢ <;> omega

/-- Witness for C11: the 12 `INPUT` choices from index 5. -/
theorem selectNext_full_cycle_witness :
    1 ≤ ({ setState .InputState DialerContext.new with
          current_choice_index := 5 } : DialerContext).choices.length ∧
      selectNextN 12
          { setState .InputState DialerContext.new with current_choice_index := 5 }
        = some { setState .InputState DialerContext.new with
            current_choice_index := 5 } :=
  ⟨(selectNext_full_cycle
      { setState .InputState DialerContext.new with current_choice_index := 5 }
      (by decide) (by decide) (by decide)).1,
    (selectNext_full_cycle
      { setState .InputState DialerContext.new with current_choice_index := 5 }
      (by decide) (by decide) (by decide)).2.1⟩

/-! ## The sample window -/

/-- Pushing a sample onto the last three of `l` and trimming gives the last
three of `l` with the sample appended. -/
theorem popFrontWhileLong_push (l : List F32) (x : F32) :
    popFrontWhileLong (l.drop (l.length - 3) ++ [x])
      = (l ++ [x]).drop ((l ++ [x]).length - 3) := by
  rw [popFrontWhileLong_eq_drop, ← List.drop_append_of_le_length (by omega),
    List.drop_drop]
  congr 1
  simp only [List.length_drop, List.length_append, List.length_singleton]
  omega

/-- The window after feeding samples, from a window that is the last three of
a list `l` of earlier means. -/
theorem feedSamples_window (ss : List PupilSample) (ctx : DialerContext) (l : List F32)
    (h : ctx.position_history = l.drop (l.length - 3)) :
    (feedSamples ss ctx).position_history
      = (l ++ ss.map PupilSample.mean).drop ((l ++ ss.map PupilSample.mean).length - 3) := by
  induction ss generalizing ctx l with
  | nil => simpa [feedSamples] using h
  | cons s ss ih =>
    have hstep : (updatePupilPosition s.left_x s.left_y s.right_x s.right_y
        ctx).position_history
        = (l ++ [s.mean]).drop ((l ++ [s.mean]).length - 3) := by
      show popFrontWhileLong (ctx.position_history ++ [(s.left_x + s.right_x) / 2]) = _
      rw [h]
      exact popFrontWhileLong_push l _
    have := ih _ (l ++ [s.mean]) hstep
    simpa [feedSamples, List.append_assoc] using this

/-- C13: after `n` calls of `updatePupilPosition` from an empty window, the
window is the last `min n 3` horizontal means `(left_x + right_x) / 2` of the
samples in arrival order (the means with the first `n - 3` dropped), so its
size is `min n 3`, never more than 3; and two runs whose samples agree in the
horizontal coordinates leave the same window, whatever the vertical ones. -/
theorem window_holds_last_three (ctx : DialerContext) (ss : List PupilSample)
    (hempty : ctx.position_history = []) :
    (feedSamples ss ctx).position_history
        = (ss.map PupilSample.mean).drop (ss.length - 3) ∧
      (feedSamples ss ctx).position_history.length = min ss.length 3 ∧
      (feedSamples ss ctx).position_history.length ≤ 3 ∧
      ∀ ss2 : List PupilSample,
        ss2.map (fun s => (s.left_x, s.right_x)) = ss.map (fun s => (s.left_x, s.right_x)) →
        (feedSamples ss2 ctx).position_history = (feedSamples ss ctx).position_history := by
  have hw : ∀ ts : List PupilSample, (feedSamples ts ctx).position_history
      = (ts.map PupilSample.mean).drop (ts.length - 3) := by
    intro ts
    have := feedSamples_window ts ctx [] (by simpa using hempty)
    simpa using this
  have hlen : (feedSamples ss ctx).position_history.length = min ss.length 3 := by
    rw [hw, List.length_drop, List.length_map]
    omega
  refine ⟨hw ss, hlen, by omega, ?_⟩
  intro ss2 h
  have hmean : ss2.map PupilSample.mean = ss.map PupilSample.mean := by
    have := congrArg (List.map fun p : F32 × F32 => (p.1 + p.2) / 2) h
    simpa [List.map_map, Function.comp, PupilSample.mean] using this
  have hl : ss2.length = ss.length := by
    have := congrArg List.length h
    simpa using this
  rw [hw ss2, hw ss, hmean, hl]

/-- Witness for C13: four samples into the fresh controller; the first mean
is evicted. -/
theorem window_holds_last_three_witness :
    (feedSamples
        [⟨0, 0, 0, 0⟩, ⟨1 / 4, 1, 3 / 4, 0⟩, ⟨1, 0, 1, 1⟩, ⟨0, 1, 1 / 2, 1⟩]
        DialerContext.new).position_history
      = (([⟨0, 0, 0, 0⟩, ⟨1 / 4, 1, 3 / 4, 0⟩, ⟨1, 0, 1, 1⟩, ⟨0, 1, 1 / 2, 1⟩] :
          List PupilSample).map PupilSample.mean).drop (4 - 3) :=
  (window_holds_last_three DialerContext.new
    [⟨0, 0, 0, 0⟩, ⟨1 / 4, 1, 3 / 4, 0⟩, ⟨1, 0, 1, 1⟩, ⟨0, 1, 1 / 2, 1⟩] rfl).1

/-! ## Invariants of the reachable states -/

theorem inputChoices_length : inputChoices.length = 12 := by decide

theorem confirmChoices_length : confirmChoices.length = 3 := by decide

theorem mem_inputChoices (c : Str) (h : c ∈ inputChoices) :
    c ∈ digitLabels ∨ c = ['D', 'e', 'l'] ∨ c = ['C', 'a', 'l', 'l'] := by
  simp only [inputChoices, List.mem_append, List.mem_cons, List.mem_singleton,
    List.not_mem_nil, or_false] at h
  exact h

theorem digitLabels_isDigit : ∀ c ∈ digitLabels, ∀ ch ∈ c, ch.isDigit = true := by
  decide

/-- The two invariants only read the state, the carousel, the index and the
input buffer. -/
theorem invariants_congr (a b : DialerContext) (hs : a.state = b.state)
    (hc : a.choices = b.choices)
    (hi : a.current_choice_index = b.current_choice_index) (hin : a.input = b.input)
    (h : CarouselOk b ∧ BufferOk b) : CarouselOk a ∧ BufferOk a := by
  unfold CarouselOk BufferOk at h ⊢
  rw [hs, hc, hi, hin]
  exact h

theorem invariants_new : CarouselOk DialerContext.new ∧ BufferOk DialerContext.new := by
  refine ⟨⟨fun h => ?_, fun h => ?_⟩, ?_, fun _ => rfl⟩
  · exact absurd h (by decide)
  · exact absurd h (by decide)
  · intro ch hch
    exact absurd hch (List.not_mem_nil _)

/-- Entering any state from a context whose buffer holds digits only. -/
theorem invariants_setState (s : State) (ctx : DialerContext)
    (hd : ∀ ch ∈ ctx.input, ch.isDigit = true) :
    CarouselOk (setState s ctx) ∧ BufferOk (setState s ctx) := by
  cases s with
  | InputState =>
    exact ⟨⟨fun _ => ⟨rfl, le_refl (0 : Int), (by norm_num : (0 : Int) < 12)⟩, fun h => absurd h (by simp [setState, State.enter])⟩,
      hd, fun h => absurd h (by simp [setState, State.enter, State.kind])⟩
  | ConfirmState =>
    exact ⟨⟨fun h => absurd h (by simp [setState, State.enter]),
      fun _ => ⟨rfl, le_refl (0 : Int), (by norm_num : (0 : Int) < 3)⟩⟩,
      hd, fun h => absurd h (by simp [setState, State.enter, State.kind])⟩
  | WaitState p q =>
    exact ⟨⟨fun h => absurd h (by simp [setState, State.enter]),
      fun h => absurd h (by simp [setState, State.enter])⟩,
      fun ch hch => absurd hch (List.not_mem_nil _), fun _ => rfl⟩
  | PhoneCallState t =>
    exact ⟨⟨fun h => absurd h (by simp [setState, State.enter]),
      fun h => absurd h (by simp [setState, State.enter])⟩,
      hd, fun h => absurd h (by simp [setState, State.enter, State.kind])⟩

/-- A `selectNext` or `selectPrev` that is defined keeps the invariants. -/
theorem invariants_select (ctx c : DialerContext)
    (h : CarouselOk ctx ∧ BufferOk ctx)
    (hsel : selectNext ctx = some c ∨ selectPrev ctx = some c) :
    CarouselOk c ∧ BufferOk c := by
  have hsame : c.state = ctx.state ∧ c.choices = ctx.choices ∧ c.input = ctx.input := by
    rcases hsel with h0 | h0
    · simp only [selectNext, Option.map_eq_some'] at h0
      obtain ⟨i, _, rfl⟩ := h0
      exact ⟨rfl, rfl, rfl⟩
    · simp only [selectPrev, Option.map_eq_some'] at h0
      obtain ⟨i, _, rfl⟩ := h0
      exact ⟨rfl, rfl, rfl⟩
  obtain ⟨hs, hc, hin⟩ := hsame
  have hrange : ∀ n : Nat, 0 < n → n ≤ 12 → ctx.choices.length = n →
      0 ≤ ctx.current_choice_index → ctx.current_choice_index < n →
      0 ≤ c.current_choice_index ∧ c.current_choice_index < n := by
    intro n hn hn12 hlen h0 h1
    obtain ⟨k, hk⟩ := Int.eq_ofNat_of_zero_le h0
    have hkn : k < ctx.choices.length := by omega
    have hle : ctx.choices.length ≤ 2 ^ 31 := by omega
    rcases hsel with h0 | h0
    · rw [selectNext_of_lt ctx k hk hkn hle] at h0
      rw [← Option.some.inj h0, hlen]
      have := Nat.mod_lt (k + 1) hn
      constructor <;> dsimp only <;> omega
    · rw [selectPrev_of_lt ctx k hk hkn hle] at h0
      rw [← Option.some.inj h0, hlen]
      have := Nat.mod_lt (k + n - 1) hn
      constructor <;> dsimp only <;> omega
  obtain ⟨⟨hci, hcc⟩, hb⟩ := h
  refine ⟨⟨fun hst => ?_, fun hst => ?_⟩, ?_⟩
  · obtain ⟨e, h0, h1⟩ := hci (hs ▸ hst)
    have := hrange 12 (by decide) (by decide) (by rw [e]; exact inputChoices_length) h0 h1
    exact ⟨hc.trans e, this⟩
  · obtain ⟨e, h0, h1⟩ := hcc (hs ▸ hst)
    have := hrange 3 (by decide) (by decide) (by rw [e]; exact confirmChoices_length) h0 h1
    exact ⟨hc.trans e, this⟩
  · unfold BufferOk at hb ⊢
    rw [hs, hin]
    exact hb

/-- In `INPUT` with the invariants, the current choice is one of the twelve
labels. -/
theorem currentChoice_mem_inputChoices (ctx : DialerContext) (c : Str)
    (h : CarouselOk ctx) (hs : ctx.state = .InputState)
    (hc : currentChoice ctx = some c) : c ∈ inputChoices := by
  obtain ⟨e, _, _⟩ := h.1 hs
  unfold currentChoice at hc
  rw [e] at hc
  exact List.getElem?_mem hc

/-- A commit that is defined keeps the invariants. -/
theorem invariants_commitChoice (ctx c : DialerContext)
    (h : CarouselOk ctx ∧ BufferOk ctx) (hc : State.commitChoice ctx = some c) :
    CarouselOk c ∧ BufferOk c := by
  have hd : ∀ ch ∈ ctx.input, ch.isDigit = true := h.2.1
  cases hs : ctx.state with
  | WaitState p q =>
    simp only [State.commitChoice, hs, Option.some.injEq] at hc
    rw [← hc]
    exact h
  | PhoneCallState t =>
    simp only [State.commitChoice, hs, Option.some.injEq] at hc
    rw [← hc]
    exact h
  | InputState =>
    simp only [State.commitChoice, hs, InputState.commitChoice, Option.map_eq_some'] at hc
    obtain ⟨choice, hcur, rfl⟩ := hc
    have hmem := currentChoice_mem_inputChoices ctx choice h.1 hs hcur
    by_cases hdel : choice = ['D', 'e', 'l']
    · rw [if_pos hdel]
      unfold inputPop
      split
      · exact h
      · refine ⟨h.1, ?_, ?_⟩
        · intro ch hch
          exact hd ch (List.dropLast_subset _ hch)
        · intro hk
          have hk2 : ctx.state.kind = .WAIT := hk
          rw [hs] at hk2
          exact absurd hk2 (by decide)
    · rw [if_neg hdel]
      by_cases hcall : choice = ['C', 'a', 'l', 'l']
      · rw [if_pos hcall]
        exact invariants_setState _ _ hd
      · rw [if_neg hcall]
        have hdig : choice ∈ digitLabels := by
          rcases mem_inputChoices choice hmem with h1 | h1 | h1
          · exact h1
          · exact absurd h1 hdel
          · exact absurd h1 hcall
        refine ⟨h.1, ?_, ?_⟩
        · intro ch hch
          rcases List.mem_append.mp hch with h1 | h1
          · exact hd ch h1
          · exact digitLabels_isDigit choice hdig ch h1
        · intro hk
          have hk2 : ctx.state.kind = .WAIT := hk
          rw [hs] at hk2
          exact absurd hk2 (by decide)
  | ConfirmState =>
    simp only [State.commitChoice, hs, ConfirmState.commitChoice, Option.map_eq_some'] at hc
    obtain ⟨choice, _, rfl⟩ := hc
    split_ifs <;> exact invariants_setState _ _ hd

theorem invariants_checkCountdown (ctx c : DialerContext)
    (h : CarouselOk ctx ∧ BufferOk ctx) (hc : checkCountdown ctx = some c) :
    CarouselOk c ∧ BufferOk c := by
  unfold checkCountdown at hc
  split at hc
  · rw [← Option.some.inj hc]
    exact h
  · exact invariants_commitChoice { ctx with countdown := countdown_ticks } c h hc

/-- A dispatched movement that is defined keeps the invariants. -/
theorem invariants_eyeMovement (m : EyeMovement) (ctx c : DialerContext)
    (h : CarouselOk ctx ∧ BufferOk ctx) (hc : State.eyeMovement m ctx = some c) :
    CarouselOk c ∧ BufferOk c := by
  have hin : ∀ c0, InputState.eyeMovement m ctx = some c0 →
      CarouselOk c0 ∧ BufferOk c0 := by
    intro c0 h0
    simp only [InputState.eyeMovement, Option.map_eq_some'] at h0
    obtain ⟨c1, h1, rfl⟩ := h0
    have h2 : CarouselOk c1 ∧ BufferOk c1 := by
      split at h1
      · exact invariants_select _ _ h (Or.inr h1)
      · split at h1
        · exact invariants_select _ _ h (Or.inl h1)
        · rw [← Option.some.inj h1]
          exact h
    split <;> exact h2
  cases hs : ctx.state with
  | InputState =>
    simp only [State.eyeMovement, hs] at hc
    exact hin _ hc
  | ConfirmState =>
    simp only [State.eyeMovement, hs] at hc
    exact hin _ hc
  | PhoneCallState t =>
    simp only [State.eyeMovement, hs, Option.some.injEq] at hc
    rw [← hc]
    exact h
  | WaitState p q =>
    simp only [State.eyeMovement, hs, Option.some.injEq] at hc
    rw [← hc]
    have hempty : ctx.input = [] := h.2.2 (by rw [hs]; rfl)
    unfold WaitState.eyeMovement
    by_cases hm : m = CENTER
    · rw [if_pos hm]
      exact h
    · rw [if_neg hm]
      dsimp only
      generalize (if p ≠ m then truncToInt ((q : ℚ) + 3 / 2 * (ticks_per_seconds : ℚ))
        else q) = q1
      by_cases hge : q1 ≥ ticks_per_seconds * 5
      · rw [if_pos hge]
        exact invariants_setState _ _ h.2.1
      · rw [if_neg hge]
        exact ⟨⟨fun hst => absurd hst (by simp), fun hst => absurd hst (by simp)⟩,
          h.2.1, fun _ => hempty⟩

theorem invariants_detectEyeMovement (ctx c : DialerContext)
    (h : CarouselOk ctx ∧ BufferOk ctx) (hc : detectEyeMovement ctx = some c) :
    CarouselOk c ∧ BufferOk c := by
  unfold detectEyeMovement at hc
  split at hc
  · rw [← Option.some.inj hc]
    exact h
  · simp only [Option.map_eq_some'] at hc
    obtain ⟨c1, h1, rfl⟩ := hc
    have h2 := invariants_eyeMovement _
      { ctx with movement := classify (getMovingAverage ctx) } c1 h h1
    split <;> exact h2

theorem invariants_stateTick (ctx : DialerContext)
    (h : CarouselOk ctx ∧ BufferOk ctx) :
    CarouselOk (State.tick ctx) ∧ BufferOk (State.tick ctx) := by
  cases hs : ctx.state with
  | InputState =>
    simp only [State.tick, hs]
    exact h
  | ConfirmState =>
    simp only [State.tick, hs]
    exact h
  | WaitState p q =>
    have hempty : ctx.input = [] := h.2.2 (by rw [hs]; rfl)
    simp only [State.tick, hs, WaitState.tick]
    split
    · exact ⟨⟨fun hst => absurd hst (by simp), fun hst => absurd hst (by simp)⟩,
        h.2.1, fun _ => hempty⟩
    · exact h
  | PhoneCallState t =>
    simp only [State.tick, hs, PhoneCallState.tick]
    split
    · exact invariants_setState _ _ h.2.1
    · refine ⟨⟨fun hst => absurd hst (by simp), fun hst => absurd hst (by simp)⟩,
        h.2.1, fun hk => absurd hk (by simp [State.kind])⟩

theorem invariants_tick (ctx c : DialerContext)
    (h : CarouselOk ctx ∧ BufferOk ctx) (hc : DialerContext.tick ctx = some c) :
    CarouselOk c ∧ BufferOk c := by
  simp only [DialerContext.tick, bind, Option.bind_eq_some, pure, Option.some.injEq] at hc
  obtain ⟨_, _, c1, h1, c2, h2, rfl⟩ := hc
  exact invariants_stateTick _
    (invariants_detectEyeMovement _ _ (invariants_checkCountdown _ _ h h1) h2)

theorem invariants_apply (e : HostCall) (ctx c : DialerContext)
    (h : CarouselOk ctx ∧ BufferOk ctx) (hc : e.apply ctx = some c) :
    CarouselOk c ∧ BufferOk c := by
  cases e with
  | updatePupilPosition lx ly rx ry =>
    simp only [HostCall.apply, Option.some.injEq] at hc
    rw [← hc]
    exact h
  | tick => exact invariants_tick _ _ h hc
  | keypress key =>
    simp only [HostCall.apply, keypress] at hc
    split at hc
    · exact invariants_select _ _ h (Or.inl hc)
    · split at hc
      · exact invariants_select _ _ h (Or.inr hc)
      · rw [← Option.some.inj hc]
        exact h

/-- Every state a run of host calls reaches from an invariant state keeps
both invariants. -/
theorem invariants_runHost (es : List HostCall) (ctx c : DialerContext)
    (h : CarouselOk ctx ∧ BufferOk ctx) (hc : runHost es ctx = some c) :
    CarouselOk c ∧ BufferOk c := by
  induction es generalizing ctx with
  | nil =>
    simp only [runHost, Option.some.injEq] at hc
    rw [← hc]
    exact h
  | cons e es ih =>
    simp only [runHost, Option.bind_eq_some] at hc
    obtain ⟨c1, h1, h2⟩ := hc
    exact ih c1 (invariants_apply e ctx c1 h h1) h2

theorem currentChoice_isSome_of_lt (ctx : DialerContext)
    (h0 : 0 ≤ ctx.current_choice_index)
    (h1 : ctx.current_choice_index < ctx.choices.length)
    (hlen : ctx.choices.length ≤ 2 ^ 31) : (currentChoice ctx).isSome = true := by
  obtain ⟨k, hk⟩ := Int.eq_ofNat_of_zero_le h0
  have hkn : k < ctx.choices.length := by omega
  unfold currentChoice
  rw [hk, toSizeT_natCast k (by omega), List.getElem?_eq_getElem hkn]
  rfl

/-- C16: in every state reached from the constructor by ticks, pupil updates
and key presses: when `INPUT` is active the carousel is exactly
`"0", ..., "9", "Del", "Call"`, when `CONFIRM` is active it is exactly
`"No", "Yes", "Back"`, and in both the current index is at least 0 and below
the carousel length, so the carousel is not empty and `currentChoice` reads
inside it. -/
theorem reachable_carousel (es : List HostCall) (c : DialerContext)
    (hrun : runHost es DialerContext.new = some c) :
    (c.state = .InputState →
        c.choices = [['0'], ['1'], ['2'], ['3'], ['4'], ['5'], ['6'], ['7'], ['8'],
          ['9'], ['D', 'e', 'l'], ['C', 'a', 'l', 'l']]) ∧
      (c.state = .ConfirmState →
        c.choices = [['N', 'o'], ['Y', 'e', 's'], ['B', 'a', 'c', 'k']]) ∧
      (c.state = .InputState ∨ c.state = .ConfirmState →
        0 ≤ c.current_choice_index ∧ c.current_choice_index < c.choices.length ∧
        c.choices ≠ [] ∧ (currentChoice c).isSome = true) := by
  obtain ⟨⟨hi, hc⟩, _⟩ := invariants_runHost es _ c invariants_new hrun
  have hlit : inputChoices = [['0'], ['1'], ['2'], ['3'], ['4'], ['5'], ['6'], ['7'],
      ['8'], ['9'], ['D', 'e', 'l'], ['C', 'a', 'l', 'l']] := by decide
  refine ⟨fun hs => (hi hs).1.trans hlit, fun hs => (hc hs).1, ?_⟩
  have hrange : c.state = .InputState ∨ c.state = .ConfirmState →
      0 ≤ c.current_choice_index ∧ c.current_choice_index < c.choices.length ∧
      c.choices.length ≤ 12 := by
    intro hs
    rcases hs with hs | hs
    · obtain ⟨e, h0, h1⟩ := hi hs
      rw [e, inputChoices_length]
      exact ⟨h0, h1, le_refl _⟩
    · obtain ⟨e, h0, h1⟩ := hc hs
      rw [e, confirmChoices_length]
      exact ⟨h0, h1, by decide⟩
  intro hs
  obtain ⟨h0, h1, h12⟩ := hrange hs
  refine ⟨h0, h1, ?_, currentChoice_isSome_of_lt c h0 h1 (by omega)⟩
  intro hnil
  rw [hnil] at h1
  simp only [List.length_nil, Nat.cast_zero] at h1
  omega

/-- Witness for C16: five glances 9 ticks apart take the fresh controller into
`INPUT`. -/
theorem reachable_carousel_witness :
    runHost (alternating LEFT [9, 9, 9, 9] ++ frame (gaze LEFT)) DialerContext.new
        = some { DialerContext.new with
            state := .InputState, choices := inputChoices,
            position_history := [1 / 2, 1 / 2, 0], wait_ticks := 8, countdown := 37,
            movement := LEFT } ∧
      (0 : Int) ≤ 0 ∧ (0 : Int) < (inputChoices.length : Int) ∧ inputChoices ≠ [] ∧
      (currentChoice { DialerContext.new with
          state := .InputState, choices := inputChoices,
          position_history := [1 / 2, 1 / 2, 0], wait_ticks := 8, countdown := 37,
          movement := LEFT }).isSome = true :=
  ⟨by decide!,
    (reachable_carousel (alternating LEFT [9, 9, 9, 9] ++ frame (gaze LEFT))
      { DialerContext.new with
        state := .InputState, choices := inputChoices,
        position_history := [1 / 2, 1 / 2, 0], wait_ticks := 8, countdown := 37,
        movement := LEFT }
      (by decide!)).2.2 (Or.inl rfl)⟩

/-- C19: in every state reached from the constructor by ticks, pupil updates
and key presses, every character of the input buffer is a decimal digit (so no
label with a letter in it, `"Del"`, `"Call"`, `"No"`, `"Yes"` or `"Back"`, was
appended), and the buffer is empty whenever `WAIT` is the active state. -/
theorem reachable_buffer (es : List HostCall) (c : DialerContext)
    (hrun : runHost es DialerContext.new = some c) :
    (∀ ch ∈ c.input, ch.isDigit = true) ∧ (c.state.kind = .WAIT → c.input = []) :=
  (invariants_runHost es _ c invariants_new hrun).2

/-- Witness for C19: after entering `INPUT` at tick 37 with the countdown at
37, 38 centre frames bring the auto-commit of `"0"`. -/
theorem reachable_buffer_witness :
    runHost (alternating LEFT [9, 9, 9, 9] ++ frame (gaze LEFT) ++ idleFrames 38)
        DialerContext.new
        = some { DialerContext.new with
            input := ['0'], state := .InputState, choices := inputChoices,
            position_history := [1 / 2, 1 / 2, 1 / 2], countdown := 74 } ∧
      ∀ ch ∈ (['0'] : Str), ch.isDigit = true :=
  ⟨by decide!,
    (reachable_buffer
      (alternating LEFT [9, 9, 9, 9] ++ frame (gaze LEFT) ++ idleFrames 38)
      { DialerContext.new with
        input := ['0'], state := .InputState, choices := inputChoices,
        position_history := [1 / 2, 1 / 2, 1 / 2], countdown := 74 }
      (by decide!)).1⟩

/-- C18, the code at the failing input: the freshly constructed controller is
reachable (by the empty run), its carousel is empty, and both key presses
`'h'` (104, `selectNext`) and `'l'` (108, `selectPrev`) take the index modulo
`choices.size() = 0`, which is undefined. -/
theorem keypress_on_fresh_controller_undefined :
    runHost [] DialerContext.new = some DialerContext.new ∧
      DialerContext.new.choices = [] ∧
      nextChoiceIndex DialerContext.new = none ∧
      prevChoiceIndex DialerContext.new = none ∧
      keypress 104 DialerContext.new = none ∧
      keypress 108 DialerContext.new = none ∧
      runHost [HostCall.keypress 104] DialerContext.new = none ∧
      runHost [HostCall.updatePupilPosition 0 0 0 0, HostCall.tick, HostCall.keypress 108]
        DialerContext.new = none := by
  decide!

/-! ## Totality of the tick on invariant states -/

theorem choiceReadable_of_carouselOk (ctx : DialerContext) (h : CarouselOk ctx) :
    ChoiceReadable ctx := by
  intro hs
  rcases hs with hs | hs
  · obtain ⟨e, h0, h1⟩ := h.1 hs
    exact currentChoice_isSome_of_lt ctx h0 (by rw [e, inputChoices_length]; exact h1)
      (by rw [e, inputChoices_length]; decide)
  · obtain ⟨e, h0, h1⟩ := h.2 hs
    exact currentChoice_isSome_of_lt ctx h0 (by rw [e, confirmChoices_length]; exact h1)
      (by rw [e, confirmChoices_length]; decide)

/-- What `InputState::eyeMovement` leaves alone. -/
theorem inputState_eyeMovement_same (m : EyeMovement) (ctx c : DialerContext)
    (h : InputState.eyeMovement m ctx = some c) :
    c.state = ctx.state ∧ c.input = ctx.input ∧ c.choices = ctx.choices := by
  simp only [InputState.eyeMovement, Option.map_eq_some'] at h
  obtain ⟨c1, h1, rfl⟩ := h
  have hsel : ∀ c0, selectNext ctx = some c0 ∨ selectPrev ctx = some c0 →
      c0.state = ctx.state ∧ c0.input = ctx.input ∧ c0.choices = ctx.choices := by
    intro c0 h0
    rcases h0 with h0 | h0
    · simp only [selectNext, Option.map_eq_some'] at h0
      obtain ⟨i, _, rfl⟩ := h0
      exact ⟨rfl, rfl, rfl⟩
    · simp only [selectPrev, Option.map_eq_some'] at h0
      obtain ⟨i, _, rfl⟩ := h0
      exact ⟨rfl, rfl, rfl⟩
  have h2 : c1.state = ctx.state ∧ c1.input = ctx.input ∧ c1.choices = ctx.choices := by
    split at h1
    · exact hsel _ (Or.inr h1)
    · split at h1
      · exact hsel _ (Or.inl h1)
      · rw [← Option.some.inj h1]
        exact ⟨rfl, rfl, rfl⟩
  split <;> exact h2

/-- With the carousel invariant, every dispatched movement is defined. -/
theorem eyeMovement_total (m : EyeMovement) (ctx : DialerContext) (h : CarouselOk ctx) :
    ∃ c, State.eyeMovement m ctx = some c := by
  have hsel : (ctx.state = .InputState ∨ ctx.state = .ConfirmState) →
      ∃ c, InputState.eyeMovement m ctx = some c := by
    intro hs
    have hne : ctx.choices.length ≠ 0 := by
      rcases hs with hs | hs
      · rw [(h.1 hs).1, inputChoices_length]; decide
      · rw [(h.2 hs).1, confirmChoices_length]; decide
    simp only [InputState.eyeMovement, selectPrev, selectNext, prevChoiceIndex,
      nextChoiceIndex, if_neg hne, Option.map_some']
    split_ifs <;> exact ⟨_, rfl⟩
  cases hs : ctx.state with
  | InputState =>
    simp only [State.eyeMovement, hs]
    exact hsel (Or.inl hs)
  | ConfirmState =>
    simp only [State.eyeMovement, hs]
    exact hsel (Or.inr hs)
  | WaitState p q =>
    simp only [State.eyeMovement, hs]
    exact ⟨_, rfl⟩
  | PhoneCallState t =>
    simp only [State.eyeMovement, hs]
    exact ⟨_, rfl⟩

theorem detectEyeMovement_total (ctx : DialerContext) (h : CarouselOk ctx) :
    ∃ c, detectEyeMovement ctx = some c := by
  unfold detectEyeMovement
  split
  · exact ⟨_, rfl⟩
  · obtain ⟨c, hc⟩ := eyeMovement_total (classify (getMovingAverage ctx))
      { ctx with movement := classify (getMovingAverage ctx) } h
    dsimp only
    rw [hc]
    exact ⟨_, rfl⟩

/-- On a state with both invariants a tick is always defined: the renderer,
the commit and the navigation all read inside the carousel. -/
theorem tick_total (ctx : DialerContext) (h : CarouselOk ctx ∧ BufferOk ctx) :
    ∃ c, DialerContext.tick ctx = some c := by
  have hr := choiceReadable_of_carouselOk ctx h.1
  have hdraw : drawAll ctx = some () := by
    unfold drawAll State.render
    split
    · rename_i hs
      obtain ⟨c, hc⟩ := Option.isSome_iff_exists.mp (hr (Or.inl hs))
      rw [hc]; rfl
    · rename_i hs
      obtain ⟨c, hc⟩ := Option.isSome_iff_exists.mp (hr (Or.inr hs))
      rw [hc]; rfl
    · rfl
    · rfl
  have hcc : ∃ c1, checkCountdown ctx = some c1 := by
    unfold checkCountdown
    split
    · exact ⟨_, rfl⟩
    · obtain ⟨c1, h1, _⟩ := commitChoice_total { ctx with countdown := countdown_ticks } hr
      exact ⟨c1, h1⟩
  obtain ⟨c1, h1⟩ := hcc
  obtain ⟨c2, h2⟩ := detectEyeMovement_total c1 (invariants_checkCountdown _ _ h h1).1
  exact ⟨State.tick c2, by
    simp only [DialerContext.tick, hdraw, h1, h2, bind, Option.bind, pure]⟩

/-! ## Commit before movement -/

theorem setState_window (s : State) (ctx : DialerContext) (h : List F32) :
    setState s { ctx with position_history := h }
      = { setState s ctx with position_history := h } := by
  cases s <;> rfl

/-- The commit does not read the sample window: on a context with another
window it does the same, and leaves that window in place. -/
theorem commitChoice_window (ctx : DialerContext) (h : List F32) :
    State.commitChoice { ctx with position_history := h }
      = (State.commitChoice ctx).map fun c => { c with position_history := h } := by
  obtain ⟨inp, st, idx, ch, ph, wt, cd, mv⟩ := ctx
  cases st with
  | WaitState p q => rfl
  | PhoneCallState t => rfl
  | InputState =>
    simp only [State.commitChoice, InputState.commitChoice, currentChoice, Option.map_map]
    congr 1
    funext choice
    simp only [Function.comp]
    split_ifs
    · unfold inputPop
      dsimp only
      split_ifs <;> rfl
    · rfl
    · rfl
  | ConfirmState =>
    simp only [State.commitChoice, ConfirmState.commitChoice, currentChoice,
      Option.map_map]
    congr 1
    funext choice
    simp only [Function.comp]
    split_ifs <;> rfl

/-- The state object a commit in `INPUT` or `CONFIRM` leaves. -/
theorem commitChoice_state_cases (ctx c1 : DialerContext)
    (hstate : ctx.state = .InputState ∨ ctx.state = .ConfirmState)
    (hc : State.commitChoice ctx = some c1) :
    c1.state = .InputState ∨ c1.state = .ConfirmState ∨
      c1.state = .PhoneCallState 250 ∨ c1.state = .WaitState CENTER 0 := by
  rcases hstate with hs | hs
  · simp only [State.commitChoice, hs, InputState.commitChoice, Option.map_eq_some'] at hc
    obtain ⟨choice, _, rfl⟩ := hc
    split_ifs
    · left
      unfold inputPop
      split_ifs <;> exact hs
    · right; left; rfl
    · left; exact hs
  · simp only [State.commitChoice, hs, ConfirmState.commitChoice, Option.map_eq_some'] at hc
    obtain ⟨choice, _, rfl⟩ := hc
    split_ifs
    · right; right; left; rfl
    · left; rfl
    · right; right; right; rfl

/-- Right after a commit, the movement and the state tick of the same tick
change neither the input buffer nor which state is active. -/
theorem detect_then_tick_keeps (c1 c2 : DialerContext)
    (hs : c1.state = .InputState ∨ c1.state = .ConfirmState ∨
      c1.state = .PhoneCallState 250 ∨ c1.state = .WaitState CENTER 0)
    (hd : detectEyeMovement c1 = some c2) :
    (State.tick c2).input = c1.input ∧ (State.tick c2).state.kind = c1.state.kind := by
  have hmove : ∀ (m : EyeMovement) (c3 : DialerContext),
      State.eyeMovement m { c1 with movement := m } = some c3 →
      c3.input = c1.input ∧
      (c3.state = c1.state ∨ ∃ prev p, c3.state = .WaitState prev p ∧
        c1.state = .WaitState CENTER 0) := by
    intro m c3 h3
    obtain ⟨inp, st, idx, ch, ph, wt, cd, mv⟩ := c1
    dsimp only at hs h3 ⊢
    rcases hs with hs | hs | hs | hs <;> subst hs
    · obtain ⟨e1, e2, _⟩ := inputState_eyeMovement_same _ _ _ h3
      exact ⟨e2, Or.inl e1⟩
    · obtain ⟨e1, e2, _⟩ := inputState_eyeMovement_same _ _ _ h3
      exact ⟨e2, Or.inl e1⟩
    · simp only [State.eyeMovement, Option.some.injEq] at h3
      rw [← h3]
      exact ⟨rfl, Or.inl rfl⟩
    · simp only [State.eyeMovement, Option.some.injEq] at h3
      rw [← h3]
      by_cases hm : m = CENTER
      · rw [WaitState.eyeMovement, if_pos hm]
        exact ⟨rfl, Or.inl rfl⟩
      · have hst := waitState_eyeMovement_state ⟨inp, .WaitState CENTER 0, idx, ch, ph, wt, cd, m⟩
          CENTER m 0 (le_refl 0) hm
        have hcm : CENTER ≠ m := fun h => hm h.symm
        rw [if_pos hcm, if_neg (by norm_num)] at hst
        refine ⟨?_, Or.inr ⟨m, 0 + 37, hst, rfl⟩⟩
        unfold WaitState.eyeMovement
        rw [if_neg hm]
        dsimp only
        split_ifs <;> rfl
  have hc2 : c2.input = c1.input ∧
      (c2.state = c1.state ∨ ∃ prev p, c2.state = .WaitState prev p ∧
        c1.state = .WaitState CENTER 0) := by
    unfold detectEyeMovement at hd
    split at hd
    · rw [← Option.some.inj hd]
      exact ⟨rfl, Or.inl rfl⟩
    · simp only [Option.map_eq_some'] at hd
      obtain ⟨c3, h3, rfl⟩ := hd
      have := hmove _ c3 h3
      split <;> exact this
  obtain ⟨hin, hst⟩ := hc2
  have htick : ∀ s : State, c2.state = s →
      (s = .InputState ∨ s = .ConfirmState ∨ s = .PhoneCallState 250 ∨
        ∃ prev p, s = .WaitState prev p) →
      (State.tick c2).input = c2.input ∧ (State.tick c2).state.kind = s.kind := by
    intro s e hcases
    obtain ⟨inp, st, idx, ch, ph, wt, cd, mv⟩ := c2
    dsimp only at e ⊢
    subst e
    rcases hcases with h | h | h | ⟨prev, p, h⟩ <;> subst h
    · exact ⟨rfl, rfl⟩
    · exact ⟨rfl, rfl⟩
    · exact ⟨rfl, rfl⟩
    · unfold State.tick WaitState.tick
      dsimp only
      split_ifs <;> exact ⟨rfl, rfl⟩
  rcases hst with hst | ⟨prev, p, hst, hw⟩
  · have := htick c1.state hst (by
      rcases hs with h | h | h | h
      · exact Or.inl h
      · exact Or.inr (Or.inl h)
      · exact Or.inr (Or.inr (Or.inl h))
      · exact Or.inr (Or.inr (Or.inr ⟨_, _, h⟩)))
    exact ⟨this.1.trans hin, this.2⟩
  · have := htick _ hst (Or.inr (Or.inr (Or.inr ⟨_, _, rfl⟩)))
    refine ⟨this.1.trans hin, this.2.trans ?_⟩
    rw [hw]
    rfl

theorem drawAll_of_readable (ctx : DialerContext) (hr : ChoiceReadable ctx) :
    drawAll ctx = some () := by
  unfold drawAll State.render
  split
  · rename_i hs
    obtain ⟨c, hc⟩ := Option.isSome_iff_exists.mp (hr (Or.inl hs))
    rw [hc]; rfl
  · rename_i hs
    obtain ⟨c, hc⟩ := Option.isSome_iff_exists.mp (hr (Or.inr hs))
    rw [hc]; rfl
  · rfl
  · rfl

/-- C15: take a tick that starts in `INPUT` or `CONFIRM` with the countdown at
0, on a state with the reachable-state invariants.  The commit acts on the
choice current at the start of the tick and gives a context `c1` that is the
same for every sample window `h` the tick may find.  For every such window the
tick is defined and is: that commit, then `detectEyeMovement` on the context
the commit left (with window `h`), then the state tick; and at the end of the
tick the input buffer and the active state are the ones the commit left. -/
theorem commit_before_movement (ctx : DialerContext)
    (hstate : ctx.state = .InputState ∨ ctx.state = .ConfirmState)
    (hzero : ctx.countdown = 0) (hinv : CarouselOk ctx ∧ BufferOk ctx) :
    ∃ c1, State.commitChoice { ctx with countdown := 74 } = some c1 ∧
      currentChoice { ctx with countdown := 74 } = currentChoice ctx ∧
      ∀ h : List F32, ∃ c2,
        detectEyeMovement { c1 with position_history := h } = some c2 ∧
        DialerContext.tick { ctx with position_history := h } = some (State.tick c2) ∧
        (State.tick c2).input = c1.input ∧
        (State.tick c2).state.kind = c1.state.kind := by
  have hr := choiceReadable_of_carouselOk ctx hinv.1
  obtain ⟨c1, h1, _, _⟩ := commitChoice_total { ctx with countdown := countdown_ticks } hr
  have hinv1 := invariants_commitChoice { ctx with countdown := countdown_ticks } c1 hinv h1
  have hcases := commitChoice_state_cases { ctx with countdown := countdown_ticks } c1
    hstate h1
  refine ⟨c1, h1, rfl, ?_⟩
  intro h
  have hinvh : CarouselOk { c1 with position_history := h } ∧
      BufferOk { c1 with position_history := h } :=
    invariants_congr _ c1 rfl rfl rfl rfl hinv1
  obtain ⟨c2, h2⟩ := detectEyeMovement_total _ hinvh.1
  have hkeep := detect_then_tick_keeps { c1 with position_history := h } c2 hcases h2
  refine ⟨c2, h2, ?_, hkeep⟩
  have hdraw : drawAll { ctx with position_history := h } = some () :=
    drawAll_of_readable _ (fun hs => hr hs)
  have hnpos : ¬ ({ ctx with position_history := h } : DialerContext).countdown > 0 := by
    show ¬ ctx.countdown > 0
    omega
  have hcommit : checkCountdown { ctx with position_history := h }
      = some { c1 with position_history := h } := by
    unfold checkCountdown
    rw [if_neg hnpos]
    have := commitChoice_window { ctx with countdown := countdown_ticks } h
    rw [h1] at this
    exact this
  simp only [DialerContext.tick, hdraw, hcommit, h2, bind, Option.bind, pure]

/-- Witness for C15: `INPUT` showing `"Call"` with the countdown at 0 and a
far-left window.  The commit enters `CONFIRM`, and only then the `LEFT`
movement moves the new carousel from `"No"` to `"Back"`. -/
theorem commit_before_movement_witness :
    DialerContext.tick
        { setState .InputState DialerContext.new with
          current_choice_index := 11, countdown := 0, position_history := [0, 0, 0] }
      = some { setState .ConfirmState DialerContext.new with
          current_choice_index := 2, countdown := 74, position_history := [0, 0, 0],
          wait_ticks := 8, movement := LEFT } ∧
    ∃ c1, State.commitChoice
        { ({ setState .InputState DialerContext.new with
            current_choice_index := 11, countdown := 0,
            position_history := [0, 0, 0] } : DialerContext) with countdown := 74 }
          = some c1 ∧
      currentChoice
        { ({ setState .InputState DialerContext.new with
            current_choice_index := 11, countdown := 0,
            position_history := [0, 0, 0] } : DialerContext) with countdown := 74 }
        = currentChoice
          { setState .InputState DialerContext.new with
            current_choice_index := 11, countdown := 0, position_history := [0, 0, 0] } ∧
      ∀ h : List F32, ∃ c2,
        detectEyeMovement { c1 with position_history := h } = some c2 ∧
        DialerContext.tick
          { ({ setState .InputState DialerContext.new with
              current_choice_index := 11, countdown := 0,
              position_history := [0, 0, 0] } : DialerContext) with position_history := h }
          = some (State.tick c2) ∧
        (State.tick c2).input = c1.input ∧
        (State.tick c2).state.kind = c1.state.kind :=
  ⟨by decide!,
    commit_before_movement
      { setState .InputState DialerContext.new with
        current_choice_index := 11, countdown := 0, position_history := [0, 0, 0] }
      (Or.inl rfl) rfl
      ⟨⟨fun _ => ⟨rfl, by decide, by decide⟩, fun h => absurd h (by decide)⟩,
        fun ch hch => absurd hch (List.not_mem_nil _), fun h => absurd h (by decide)⟩⟩

/-! ## Five detections to start -/

/-- In `CALL`, the countdown check of a tick is defined and leaves the state
object, the buffer and the carousel alone. -/
theorem checkCountdown_call (ctx : DialerContext) (t : Int)
    (hs : ctx.state = .PhoneCallState t) :
    ∃ c1, checkCountdown ctx = some c1 ∧
      c1.state = .PhoneCallState t ∧ c1.input = ctx.input ∧ c1.choices = ctx.choices := by
  unfold checkCountdown
  split
  · exact ⟨_, rfl, hs, rfl, rfl⟩
  · refine ⟨{ ctx with countdown := countdown_ticks }, ?_, hs, rfl, rfl⟩
    simp only [State.commitChoice, hs]

/-- In `CALL`, the movement detection of a tick is defined and leaves the state
object, the buffer and the carousel alone. -/
theorem detectEyeMovement_call (ctx : DialerContext) (t : Int)
    (hs : ctx.state = .PhoneCallState t) :
    ∃ c2, detectEyeMovement ctx = some c2 ∧
      c2.state = .PhoneCallState t ∧ c2.input = ctx.input ∧ c2.choices = ctx.choices := by
  unfold detectEyeMovement
  split
  · exact ⟨_, rfl, hs, rfl, rfl⟩
  · simp only [State.eyeMovement, hs, Option.map_some']
    split_ifs <;> exact ⟨_, rfl, rfl, rfl, rfl⟩

/-- A tick in `CALL`: always defined; it keeps the carousel, and either counts
the state down or, when the count reaches 0, enters `WAIT` and clears the
buffer. -/
theorem tick_call (ctx : DialerContext) (t : Int) (hs : ctx.state = .PhoneCallState t) :
    ∃ c, DialerContext.tick ctx = some c ∧ c.choices = ctx.choices ∧
      (t - 1 ≠ 0 → c.state = .PhoneCallState (t - 1) ∧ c.input = ctx.input) ∧
      (t - 1 = 0 → c.state = .WaitState CENTER 0 ∧ c.input = []) := by
  have hdraw : drawAll ctx = some () := by
    simp only [drawAll, State.render, hs]
  obtain ⟨c1, h1, hs1, hi1, hc1⟩ := checkCountdown_call ctx t hs
  obtain ⟨c2, h2, hs2, hi2, hc2⟩ := detectEyeMovement_call c1 t hs1
  have htick : DialerContext.tick ctx = some (State.tick c2) := by
    simp only [DialerContext.tick, hdraw, h1, h2, bind, Option.bind, pure]
  obtain ⟨inp2, st2, idx2, ch2, ph2, wt2, cd2, mv2⟩ := c2
  dsimp only at hs2 hi2 hc2
  subst hs2
  refine ⟨_, htick, ?_, ?_, ?_⟩
  · unfold State.tick PhoneCallState.tick
    dsimp only
    split_ifs <;> exact hc2.trans hc1
  · intro hne
    unfold State.tick PhoneCallState.tick
    dsimp only
    rw [if_neg hne]
    exact ⟨rfl, hi2.trans hi1⟩
  · intro he
    unfold State.tick PhoneCallState.tick
    dsimp only
    rw [if_pos he]
    exact ⟨rfl, rfl⟩

/-- Host calls made while `CALL` has more ticks left than they contain: all
defined, the buffer and the carousel stay, the count drops by the ticks. -/
theorem runHost_call (es : List HostCall) (ctx : DialerContext) (t : Int)
    (hs : ctx.state = .PhoneCallState t) (hne : ctx.choices.length ≠ 0)
    (hlt : (countTicks es : Int) < t) :
    ∃ c, runHost es ctx = some c ∧
      c.state = .PhoneCallState (t - countTicks es) ∧ c.input = ctx.input ∧
      c.choices = ctx.choices := by
  induction es generalizing ctx t with
  | nil =>
    refine ⟨ctx, rfl, ?_, rfl, rfl⟩
    simp only [countTicks, List.count_nil, Nat.cast_zero, sub_zero, hs]
  | cons e es ih =>
    cases e with
    | updatePupilPosition lx ly rx ry =>
      have hcount : countTicks (HostCall.updatePupilPosition lx ly rx ry :: es)
          = countTicks es := by
        simp [countTicks, List.count_cons]
      rw [hcount] at hlt ⊢
      obtain ⟨c, hc, h1, h2, h3⟩ :=
        ih (updatePupilPosition lx ly rx ry ctx) t hs hne hlt
      exact ⟨c, by simp only [runHost, HostCall.apply, Option.some_bind, hc], h1, h2, h3⟩
    | keypress key =>
      have hcount : countTicks (HostCall.keypress key :: es) = countTicks es := by
        simp [countTicks, List.count_cons]
      rw [hcount] at hlt ⊢
      have hk : ∃ c1, keypress key ctx = some c1 ∧ c1.state = ctx.state ∧
          c1.input = ctx.input ∧ c1.choices = ctx.choices := by
        simp only [keypress, selectNext, selectPrev, nextChoiceIndex, prevChoiceIndex,
          if_neg hne, Option.map_some']
        split_ifs <;> exact ⟨_, rfl, rfl, rfl, rfl⟩
      obtain ⟨c1, hc1, e1, e2, e3⟩ := hk
      obtain ⟨c, hc, h1, h2, h3⟩ := ih c1 t (e1.trans hs) (by rw [e3]; exact hne) hlt
      exact ⟨c, by simp only [runHost, HostCall.apply, hc1, Option.some_bind, hc], h1,
        h2.trans e2, h3.trans e3⟩
    | tick =>
      have hcount : countTicks (HostCall.tick :: es) = countTicks es + 1 := by
        simp [countTicks, List.count_cons]
      rw [hcount] at hlt ⊢
      push_cast at hlt ⊢
      obtain ⟨c1, hc1, e3, hgo, _⟩ := tick_call ctx t hs
      obtain ⟨e1, e2⟩ := hgo (by omega)
      obtain ⟨c, hc, h1, h2, h3⟩ := ih c1 (t - 1) e1 (by rw [e3]; exact hne) (by omega)
      refine ⟨c, by simp only [runHost, HostCall.apply, hc1, Option.some_bind, hc], ?_,
        h2.trans e2, h3.trans e3⟩
      rw [h1]
      congr 1
      omega

/-- C20: let a tick start in `CONFIRM` with `"Yes"` as the current choice and
the countdown at 0 (tick `n`).  That tick commits, enters `CALL` and already
dispatches the state tick to it, ending with 249 on the counter.  Through any
host calls that follow (pupil samples, key presses, ticks) with `k ≤ 248`
ticks among them, `CALL` is active with `249 - k` on the counter and the input
buffer unchanged, so the controller is in `CALL` at the end of ticks
`n, ..., n + 248`; and the next tick after 248 of them (tick `n + 249`) ends
in `WAIT` with an empty input buffer. -/
theorem call_lasts_from_commit (ctx : DialerContext) (es : List HostCall)
    (hs : ctx.state = .ConfirmState)
    (hyes : currentChoice ctx = some ['Y', 'e', 's'])
    (hzero : ctx.countdown = 0) (hcount : countTicks es ≤ 248) :
    ∃ c0 c, DialerContext.tick ctx = some c0 ∧ c0.state = .PhoneCallState 249 ∧
      runHost es c0 = some c ∧
      c.state = .PhoneCallState (249 - countTicks es) ∧ c.input = ctx.input ∧
      (countTicks es = 248 →
        ∃ c1, DialerContext.tick c = some c1 ∧ c1.state = .WaitState CENTER 0 ∧
          c1.input = []) := by
  have hne : ctx.choices.length ≠ 0 := by
    intro h0
    unfold currentChoice at hyes
    rw [List.length_eq_zero.mp h0] at hyes
    simp at hyes
  have hdraw : drawAll ctx = some () := by
    simp only [drawAll, State.render, hs, hyes, Option.map_some']
  have hnpos : ¬ ctx.countdown > 0 := by omega
  have hcommit : checkCountdown ctx
      = some (setState newPhoneCallState { ctx with countdown := countdown_ticks }) := by
    unfold checkCountdown
    rw [if_neg hnpos,
      commitChoice_of_confirm { ctx with countdown := countdown_ticks } _ hs hyes,
      if_pos rfl]
  obtain ⟨c2, h2, hs2, hi2, hc2⟩ := detectEyeMovement_call
    (setState newPhoneCallState { ctx with countdown := countdown_ticks })
    (10 * ticks_per_seconds) rfl
  have hs249 : (State.tick c2).state = .PhoneCallState 249 := by
    rw [stateTick_state, hs2]
    rfl
  have hi249 : (State.tick c2).input = ctx.input := by
    obtain ⟨inp2, st2, idx2, ch2, ph2, wt2, cd2, mv2⟩ := c2
    dsimp only at hs2 hi2
    subst hs2
    exact hi2
  have hc249 : (State.tick c2).choices = ctx.choices := by
    obtain ⟨inp2, st2, idx2, ch2, ph2, wt2, cd2, mv2⟩ := c2
    dsimp only at hs2 hc2
    subst hs2
    exact hc2
  have htick : DialerContext.tick ctx = some (State.tick c2) := by
    simp only [DialerContext.tick, hdraw, hcommit, h2, bind, Option.bind, pure]
  obtain ⟨c, hc, hsc, hic, hcc⟩ := runHost_call es (State.tick c2) 249 hs249
    (by rw [hc249]; exact hne) (by omega)
  refine ⟨State.tick c2, c, htick, hs249, hc, hsc, hic.trans hi249, ?_⟩
  intro h248
  obtain ⟨c1, hc1, _, _, hgo⟩ := tick_call c (249 - countTicks es) hsc
  obtain ⟨e1, e2⟩ := hgo (by omega)
  exact ⟨c1, hc1, e1, e2⟩

/-- Witness for C20: `CONFIRM` showing `"Yes"` with buffer `"7"` and the
countdown at 0, then 248 centre frames: `CALL` with 1 on the counter, and the
next tick ends in `WAIT` with the buffer empty. -/
theorem call_lasts_from_commit_witness :
    countTicks (idleFrames 248) = 248 ∧
    ∃ c0 c,
      DialerContext.tick
          { setState .ConfirmState DialerContext.new with
            input := ['7'], current_choice_index := 1, countdown := 0 }
        = some c0 ∧
      c0.state = .PhoneCallState 249 ∧
      runHost (idleFrames 248) c0 = some c ∧
      c.state = .PhoneCallState (249 - countTicks (idleFrames 248)) ∧
      c.input = ({ setState .ConfirmState DialerContext.new with
        input := ['7'], current_choice_index := 1, countdown := 0 } : DialerContext).input ∧
      (countTicks (idleFrames 248) = 248 →
        ∃ c1, DialerContext.tick c = some c1 ∧ c1.state = .WaitState CENTER 0 ∧
          c1.input = []) :=
  ⟨by decide!,
    call_lasts_from_commit
      { setState .ConfirmState DialerContext.new with
        input := ['7'], current_choice_index := 1, countdown := 0 }
      (idleFrames 248) rfl (by decide) rfl (by decide!)⟩

end Eyegaze
